import Mathlib

/-!
Verification development for the dependency-field parser of the go-debian
repository (src/dependency/parser.go).

The parser is embedded shallowly over byte strings modelled as `List Nat`
(a Go string is a byte sequence; every comparison the parser makes is a
byte comparison).  The Go cursor type `Input` holds an immutable string and
a mutable index; here the string is a fixed parameter `d` and the index is
threaded explicitly.  `Input.Peek` returns the sentinel byte 0 when the
index is out of range, and `Input.Next` returns the peeked byte and
advances the index unconditionally; both are mirrored exactly.

Each Go loop becomes a recursive Lean function over an explicit fuel
counter (the Go loops are not structurally recursive: progress comes from
the cursor index, which is threaded, not matched on).  A function returns
`none` when the fuel runs out; the termination theorem for claim C9 proves
that the fuel bound used by `Parse` is always sufficient, so the `none`
branch is unreachable from the entry point.  Mutation of the in-progress
records (`ret.Name += ...`, `possi.Version = ...`, appends to slices) is
modelled by returning updated records.

Byte constants used below: 9 tab, 10 newline, 13 carriage return,
32 space, 33 bang, 40 lparen, 41 rparen, 44 comma, 60 less, 61 equals,
62 greater, 91 lbracket, 93 rbracket, 124 pipe.
-/

set_option maxRecDepth 20000

/-- ASCII bytes of a Lean string literal; all concrete inputs below are
ASCII, so `Char.toNat` agrees with the Go byte values. -/
def bytes (s : String) : List Nat :=
  s.toList.map Char.toNat

/-- Modelled from the spec: the architecture token type.  The source file
src/dependency/parser.go only mentions `Arch` through the external
validator `ParseArch`; the spec (sections 3 and 6) treats an Arch as an
opaque validated token, so it is modelled as a wrapper around the raw
token bytes. -/
structure Arch where
  raw : List Nat
deriving DecidableEq

/-- Modelled from the spec: the build-stage qualifier type.  The grammar
never populates it (spec section 9); only its empty set appears. -/
structure Stage where
  raw : List Nat
deriving DecidableEq

/-- Stage set reserved on each Possibility; always empty in this grammar. -/
structure StageSet where
  Stages : List Stage
deriving DecidableEq

/-- Architecture qualifier set: a whole-list negation flag and the
validated architecture tokens, in insertion order. -/
structure ArchSet where
  Not : Bool
  Arches : List Arch
deriving DecidableEq

/-- Version constraint `(OP NUMBER)`: operator and number bytes, both kept
as opaque text exactly as accumulated. -/
structure VersionRelation where
  Operator : List Nat
  Number : List Nat
deriving DecidableEq

/-- One candidate term: name bytes, optional version constraint,
architecture qualifier set, reserved stage set. -/
structure Possibility where
  Name : List Nat
  Version : Option VersionRelation
  Arches : ArchSet
  Stages : StageSet
deriving DecidableEq

/-- One OR-group of possibilities. -/
structure Relation where
  Possibilities : List Possibility
deriving DecidableEq

/-- The full parsed AND-of-ORs expression.  The name keeps the spelling of
the Go type, which is `Depedency` in the source. -/
structure Depedency where
  Relations : List Relation
deriving DecidableEq

/-- Parse errors.  The Go code produces strings via errors.New and
fmt.Errorf; each distinct message becomes one constructor, carrying the
formatted-in payload where the Go message has one. -/
inductive ParseErr where
  | noPackageName : ParseErr
  | onlyOneVersion : ParseErr
  | onlyOneArch : ParseErr
  | trailingGarbage : Nat → ParseErr
  | eofOperator : ParseErr
  | unknownOperator : List Nat → ParseErr
  | eofNumber : ParseErr
  | eofArchList : ParseErr
  | negateWholeBlocks : ParseErr
deriving DecidableEq

instance {ε α : Type} [DecidableEq ε] [DecidableEq α] : DecidableEq (Except ε α) := fun x y =>
  match x, y with
  | .error a, .error b =>
    if h : a = b then .isTrue (by rw [h]) else .isFalse (by intro hh; injection hh; contradiction)
  | .error _, .ok _ => .isFalse (by intro hh; exact Except.noConfusion hh)
  | .ok _, .error _ => .isFalse (by intro hh; exact Except.noConfusion hh)
  | .ok a, .ok b =>
    if h : a = b then .isTrue (by rw [h]) else .isFalse (by intro hh; injection hh; contradiction)

/-- Input.Peek: the byte at the index, or the sentinel 0 out of range.
A genuine NUL byte in the data is indistinguishable from end of input. -/
def Peek (d : List Nat) (i : Nat) : Nat :=
  d.getD i 0

/-- The whitespace test of eatWhitespace: carriage return, newline, space,
tab. -/
def isWs (c : Nat) : Bool :=
  c == 13 || c == 10 || c == 32 || c == 9

/-- Length of the leading whitespace run of a byte list.  Helper for
`eatWhitespace`. -/
def wsCount : List Nat → Nat
  | [] => 0
  | c :: r => if isWs c then wsCount r + 1 else 0

/-- eatWhitespace: advance the cursor over the maximal run of whitespace
bytes starting at `i`.  The Go loop peeks and consumes while the peeked
byte is whitespace; since no whitespace byte is 0, the loop stops at the
first non-whitespace byte or at end of input, which is exactly the index
`i + wsCount (d.drop i)`.  The lemmas `eatWhitespace_eq_self`,
`eatWhitespace_succ_of_ws` and `eatWhitespace_stop` recover the loop
equations of the source. -/
def eatWhitespace (d : List Nat) (i : Nat) : Nat :=
  i + wsCount (d.drop i)

/-- Modelled from the spec: the external architecture validator ParseArch
(not part of this repository's sources; spec section 6 treats it as a
black box returning a canonical identifier for a raw token).  The spec
examples in section 8 assume ordinary tokens such as amd64 and i386
validate, so the model accepts every token verbatim. -/
def ParseArch (arch : List Nat) : Except ParseErr Arch :=
  .ok ⟨arch⟩

/-- The loop of parsePossibilityNumber: accumulate bytes into the version
number until a closing paren (left unconsumed) or end of input (error). -/
def numLoop (d : List Nat) : Nat → Nat → VersionRelation → Option (Except ParseErr (VersionRelation × Nat))
  | 0, _, _ => none
  | fuel+1, i, version =>
    if Peek d i = 0 then some (.error .eofNumber)
    else if Peek d i = 41 then some (.ok (version, i))
    else numLoop d fuel (i+1) { version with Number := version.Number ++ [Peek d i] }

/-- parsePossibilityNumber: skip whitespace, then run the accumulation
loop. -/
def parsePossibilityNumber (d : List Nat) (fuel i : Nat) (version : VersionRelation) : Option (Except ParseErr (VersionRelation × Nat)) :=
  numLoop d fuel (eatWhitespace d i) version

/-- parsePossibilityOperator: skip whitespace; one byte `=` is the
operator `=`; otherwise read a second byte, fail at the sentinel on either
byte, and require the two-byte token to be one of `>=` `<=` `<<` `>>`.
Straight-line code, so no fuel is needed. -/
def parsePossibilityOperator (d : List Nat) (i : Nat) (version : VersionRelation) : Except ParseErr (VersionRelation × Nat) :=
  if Peek d (eatWhitespace d i) = 61 then
    .ok ({ version with Operator := [61] }, eatWhitespace d i + 1)
  else if Peek d (eatWhitespace d i) = 0 ∨ Peek d (eatWhitespace d i + 1) = 0 then
    .error .eofOperator
  else if (Peek d (eatWhitespace d i) = 62 ∧ Peek d (eatWhitespace d i + 1) = 61)
      ∨ (Peek d (eatWhitespace d i) = 60 ∧ Peek d (eatWhitespace d i + 1) = 61)
      ∨ (Peek d (eatWhitespace d i) = 60 ∧ Peek d (eatWhitespace d i + 1) = 60)
      ∨ (Peek d (eatWhitespace d i) = 62 ∧ Peek d (eatWhitespace d i + 1) = 62) then
    .ok ({ version with Operator := [Peek d (eatWhitespace d i), Peek d (eatWhitespace d i + 1)] }, eatWhitespace d i + 2)
  else
    .error (.unknownOperator [Peek d (eatWhitespace d i), Peek d (eatWhitespace d i + 1)])

/-- parsePossibilityVersion: skip whitespace, consume the opening byte
unconditionally (mandated to be a lparen), parse the operator, then the
number, then consume one closing byte unconditionally. -/
def parsePossibilityVersion (d : List Nat) (fuel i : Nat) (possi : Possibility) : Option (Except ParseErr (Possibility × Nat)) :=
  match parsePossibilityOperator d (eatWhitespace d i + 1) ⟨[], []⟩ with
  | .error e => some (.error e)
  | .ok (ver, k) =>
    match parsePossibilityNumber d fuel k ver with
    | none => none
    | some (.error e) => some (.error e)
    | some (.ok (ver2, m)) => some (.ok ({ possi with Version := some ver2 }, m + 1))

/-- The loop of parsePossibilityArch: accumulate token bytes; the sentinel
is an error, a bang inside a token is the negation-placement error, and a
rbracket or space ends the token, which is handed to ParseArch and
appended to the architecture set (the terminating byte is left for the
caller). -/
def archTokLoop (d : List Nat) : Nat → Nat → List Nat → Possibility → Option (Except ParseErr (Possibility × Nat))
  | 0, _, _, _ => none
  | fuel+1, i, arch, possi =>
    if Peek d i = 0 then some (.error .eofArchList)
    else if Peek d i = 33 then some (.error .negateWholeBlocks)
    else if Peek d i = 93 ∨ Peek d i = 32 then
      match ParseArch arch with
      | .error e => some (.error e)
      | .ok a => some (.ok ({ possi with Arches := ⟨possi.Arches.Not, possi.Arches.Arches ++ [a]⟩ }, i))
    else archTokLoop d fuel (i+1) (arch ++ [Peek d i]) possi

/-- parsePossibilityArch: skip whitespace, then accumulate one token. -/
def parsePossibilityArch (d : List Nat) (fuel i : Nat) (possi : Possibility) : Option (Except ParseErr (Possibility × Nat)) :=
  archTokLoop d fuel (eatWhitespace d i) [] possi

/-- The loop of parsePossibilityArchs: the sentinel is an error, a
rbracket is consumed and ends the list, anything else is one architecture
token. -/
def archsLoop (d : List Nat) : Nat → Nat → Possibility → Option (Except ParseErr (Possibility × Nat))
  | 0, _, _ => none
  | fuel+1, i, possi =>
    if Peek d i = 0 then some (.error .eofArchList)
    else if Peek d i = 93 then some (.ok (possi, i + 1))
    else
      match parsePossibilityArch d (fuel+1) i possi with
      | none => none
      | some (.error e) => some (.error e)
      | some (.ok (p, i2)) => archsLoop d fuel i2 p

/-- parsePossibilityArchs: skip whitespace, consume the opening byte
unconditionally (asserted to be a lbracket), consume a bang if present and
set the whole-list negation flag, then run the list loop. -/
def parsePossibilityArchs (d : List Nat) (fuel i : Nat) (possi : Possibility) : Option (Except ParseErr (Possibility × Nat)) :=
  if Peek d (eatWhitespace d i + 1) = 33 then
    archsLoop d fuel (eatWhitespace d i + 2) { possi with Arches := ⟨true, possi.Arches.Arches⟩ }
  else
    archsLoop d fuel (eatWhitespace d i + 1) possi

/-- parsePossibilityControllers: loop skipping whitespace each iteration;
a terminator returns control, a lparen opens a version constraint (at most
one), a lbracket opens an architecture list (rejected when the accumulated
architecture list is already non-empty), anything else is trailing
garbage. -/
def parsePossibilityControllers (d : List Nat) : Nat → Nat → Possibility → Option (Except ParseErr (Possibility × Nat))
  | 0, _, _ => none
  | fuel+1, i, possi =>
    if Peek d (eatWhitespace d i) = 44 ∨ Peek d (eatWhitespace d i) = 124 ∨ Peek d (eatWhitespace d i) = 0 then
      some (.ok (possi, eatWhitespace d i))
    else if Peek d (eatWhitespace d i) = 40 then
      if possi.Version.isSome then some (.error .onlyOneVersion)
      else
        match parsePossibilityVersion d (fuel+1) (eatWhitespace d i) possi with
        | none => none
        | some (.error e) => some (.error e)
        | some (.ok (p, i2)) => parsePossibilityControllers d fuel i2 p
    else if Peek d (eatWhitespace d i) = 91 then
      if possi.Arches.Arches ≠ [] then some (.error .onlyOneArch)
      else
        match parsePossibilityArchs d (fuel+1) (eatWhitespace d i) possi with
        | none => none
        | some (.error e) => some (.error e)
        | some (.ok (p, i2)) => parsePossibilityControllers d fuel i2 p
    else some (.error (.trailingGarbage (Peek d (eatWhitespace d i))))

/-- The loop of parsePossibility: a space hands over to the controllers
parser, a terminator finalizes the possibility (empty names are an
error), and any other byte (including tab, carriage return and newline)
is appended verbatim to the name. -/
def possLoop (d : List Nat) : Nat → Nat → Possibility → Relation → Option (Except ParseErr (Relation × Nat))
  | 0, _, _, _ => none
  | fuel+1, i, ret, relation =>
    if Peek d i = 32 then
      match parsePossibilityControllers d (fuel+1) i ret with
      | none => none
      | some (.error e) => some (.error e)
      | some (.ok (ret2, i2)) => possLoop d fuel i2 ret2 relation
    else if Peek d i = 44 ∨ Peek d i = 124 ∨ Peek d i = 0 then
      if ret.Name = [] then some (.error .noPackageName)
      else some (.ok ({ relation with Possibilities := relation.Possibilities ++ [ret] }, i))
    else possLoop d fuel (i+1) { ret with Name := ret.Name ++ [Peek d i] } relation

/-- The zero-initialized possibility of parsePossibility. -/
def initPossibility : Possibility :=
  ⟨[], none, ⟨false, []⟩, ⟨[]⟩⟩

/-- parsePossibility: skip leading whitespace, then run the loop on a
fresh possibility, appending it to the enclosing relation on success. -/
def parsePossibility (d : List Nat) (fuel i : Nat) (relation : Relation) : Option (Except ParseErr (Relation × Nat)) :=
  possLoop d fuel (eatWhitespace d i) initPossibility relation

/-- The loop of parseRelation: the sentinel or a comma finalizes the
relation (appending it to the dependency, comma left unconsumed), a pipe
is consumed together with following whitespace, anything else is one
possibility. -/
def relLoop (d : List Nat) : Nat → Nat → Relation → Depedency → Option (Except ParseErr (Depedency × Nat))
  | 0, _, _, _ => none
  | fuel+1, i, ret, dependency =>
    if Peek d i = 0 ∨ Peek d i = 44 then
      some (.ok ({ dependency with Relations := dependency.Relations ++ [ret] }, i))
    else if Peek d i = 124 then
      relLoop d fuel (eatWhitespace d (i+1)) ret dependency
    else
      match parsePossibility d (fuel+1) i ret with
      | none => none
      | some (.error e) => some (.error e)
      | some (.ok (ret2, i2)) => relLoop d fuel i2 ret2 dependency

/-- parseRelation: skip leading whitespace, then run the loop on a fresh
empty relation. -/
def parseRelation (d : List Nat) (fuel i : Nat) (dependency : Depedency) : Option (Except ParseErr (Depedency × Nat)) :=
  relLoop d fuel (eatWhitespace d i) ⟨[]⟩ dependency

/-- The loop of parseDependency: the sentinel succeeds with the relations
accumulated so far, a comma is consumed together with following
whitespace, anything else is one relation. -/
def depLoop (d : List Nat) : Nat → Nat → Depedency → Option (Except ParseErr (Depedency × Nat))
  | 0, _, _ => none
  | fuel+1, i, dep =>
    if Peek d i = 0 then some (.ok (dep, i))
    else if Peek d i = 44 then depLoop d fuel (eatWhitespace d (i+1)) dep
    else
      match parseRelation d (fuel+1) i dep with
      | none => none
      | some (.error e) => some (.error e)
      | some (.ok (dep2, i2)) => depLoop d fuel i2 dep2

/-- parseDependency: skip leading whitespace, then run the top loop. -/
def parseDependency (d : List Nat) (fuel i : Nat) (dep : Depedency) : Option (Except ParseErr (Depedency × Nat)) :=
  depLoop d fuel (eatWhitespace d i) dep

/-- Parse: entry point.  Builds a cursor over the input and an empty
dependency and runs parseDependency.  The fuel bound `length + 1` is
proven sufficient (claim C9), so `none` never escapes in fact; the
`Option` layer records exactly the fuel bookkeeping. -/
def Parse (d : List Nat) : Option (Except ParseErr Depedency) :=
  match parseDependency d (d.length + 1) 0 ⟨[]⟩ with
  | none => none
  | some (.error e) => some (.error e)
  | some (.ok (dep, _)) => some (.ok dep)

example : Parse (bytes "foo") = some (.ok ⟨[⟨[⟨bytes "foo", none, ⟨false, []⟩, ⟨[]⟩⟩]⟩]⟩) := by rfl

example : Parse (bytes "") = some (.ok ⟨[]⟩) := by rfl

example : Parse (bytes "|") = some (.ok ⟨[⟨[]⟩]⟩) := by rfl

example : Parse (bytes "foo [] []") = some (.ok ⟨[⟨[⟨bytes "foo", none, ⟨false, []⟩, ⟨[]⟩⟩]⟩]⟩) := by rfl

example : Parse (bytes "foo (>= 1.0)") = some (.ok ⟨[⟨[⟨bytes "foo", some ⟨bytes ">=", bytes "1.0"⟩, ⟨false, []⟩, ⟨[]⟩⟩]⟩]⟩) := by rfl

example : Parse (bytes "foo [!amd64 i386]") = some (.ok ⟨[⟨[⟨bytes "foo", none, ⟨true, [⟨bytes "amd64"⟩, ⟨bytes "i386"⟩]⟩, ⟨[]⟩⟩]⟩]⟩) := by rfl

example : Parse (bytes "foo (~> 1.0)") = some (.error (.unknownOperator (bytes "~>"))) := by rfl

example : Parse (bytes "foo bar") = some (.error (.trailingGarbage 98)) := by rfl

example : Parse (bytes "foo,,bar") = some (.ok ⟨[⟨[⟨bytes "foo", none, ⟨false, []⟩, ⟨[]⟩⟩]⟩, ⟨[⟨bytes "bar", none, ⟨false, []⟩, ⟨[]⟩⟩]⟩]⟩) := by rfl

theorem isWs_zero : isWs 0 = false := by decide

theorem Peek_eq_zero_of_le {d : List Nat} {i : Nat} (h : d.length ≤ i) : Peek d i = 0 := by
  unfold Peek
  rw [List.getD_eq_getD_get?, List.get?_eq_none.mpr h]
  rfl

theorem Peek_lt {d : List Nat} {i : Nat} (h : Peek d i ≠ 0) : i < d.length := by
  by_contra hc
  push_neg at hc
  exact h (Peek_eq_zero_of_le hc)

theorem Peek_mem {d : List Nat} {i : Nat} (h : Peek d i ≠ 0) : Peek d i ∈ d := by
  have hlt := Peek_lt h
  unfold Peek
  rw [List.getD_eq_getElem d 0 hlt]
  exact List.getElem_mem hlt

theorem getD_drop (i : Nat) : ∀ (d : List Nat) (j : Nat), (d.drop i).getD j 0 = d.getD (i + j) 0 := by
  induction i with
  | zero =>
    intro d j
    simp
  | succ n ih =>
    intro d j
    cases d with
    | nil => simp
    | cons c r =>
      simp only [List.drop_succ_cons]
      rw [ih r j]
      have he : n + 1 + j = (n + j) + 1 := by omega
      rw [he, List.getD_cons_succ]

theorem drop_eq_peek_cons {d : List Nat} {i : Nat} (h : i < d.length) : d.drop i = Peek d i :: d.drop (i+1) := by
  have := List.drop_eq_getElem_cons h
  rw [this]
  unfold Peek
  rw [List.getD_eq_getElem d 0 h]

theorem wsCount_cons (c : Nat) (r : List Nat) : wsCount (c :: r) = if isWs c then wsCount r + 1 else 0 := rfl

theorem wsCount_le_length (l : List Nat) : wsCount l ≤ l.length := by
  induction l with
  | nil => simp [wsCount]
  | cons c r ih =>
    unfold wsCount
    by_cases h : isWs c = true
    · simp only [h, if_true, List.length_cons]
      omega
    · simp only [eq_false_of_ne_true h, Bool.false_eq_true, if_false, List.length_cons]
      omega

theorem wsCount_stop (l : List Nat) : isWs (l.getD (wsCount l) 0) = false := by
  induction l with
  | nil => decide
  | cons c r ih =>
    unfold wsCount
    cases hw : isWs c with
    | true =>
      simp only [if_true]
      rw [List.getD_cons_succ]
      exact ih
    | false =>
      simp only [Bool.false_eq_true, if_false]
      rw [List.getD_cons_zero]
      exact hw

theorem eatWhitespace_ge (d : List Nat) (i : Nat) : i ≤ eatWhitespace d i :=
  Nat.le_add_right i _

theorem eatWhitespace_stop (d : List Nat) (i : Nat) : isWs (Peek d (eatWhitespace d i)) = false := by
  unfold eatWhitespace Peek
  rw [← getD_drop]
  exact wsCount_stop _

theorem eatWhitespace_eq_self {d : List Nat} {i : Nat} (h : isWs (Peek d i) = false) : eatWhitespace d i = i := by
  unfold eatWhitespace
  have hz : wsCount (d.drop i) = 0 := by
    cases hd : d.drop i with
    | nil => rfl
    | cons c r =>
      have hc : c = Peek d i := by
        have h0 := getD_drop i d 0
        rw [hd] at h0
        simp only [List.getD_cons_zero, Nat.add_zero] at h0
        exact h0
      unfold wsCount
      rw [← hc] at h
      simp [h]
  omega

theorem eatWhitespace_succ_of_ws {d : List Nat} {i : Nat} (h : isWs (Peek d i) = true) : eatWhitespace d i = eatWhitespace d (i+1) := by
  have hne : Peek d i ≠ 0 := by
    intro h0
    rw [h0, isWs_zero] at h
    exact Bool.noConfusion h
  have hlt : i < d.length := Peek_lt hne
  unfold eatWhitespace
  rw [drop_eq_peek_cons hlt, wsCount_cons, if_pos h]
  omega

theorem eatWhitespace_gt_of_ws {d : List Nat} {i : Nat} (h : isWs (Peek d i) = true) : i + 1 ≤ eatWhitespace d i := by
  rw [eatWhitespace_succ_of_ws h]
  exact eatWhitespace_ge d (i+1)

theorem eatWhitespace_le_length {d : List Nat} {i : Nat} (h : i ≤ d.length) : eatWhitespace d i ≤ d.length := by
  unfold eatWhitespace
  have hw := wsCount_le_length (d.drop i)
  rw [List.length_drop] at hw
  omega

theorem eatWhitespace_idem (d : List Nat) (i : Nat) : eatWhitespace d (eatWhitespace d i) = eatWhitespace d i :=
  eatWhitespace_eq_self (eatWhitespace_stop d i)

theorem isWs_32 : isWs 32 = true := by decide

theorem ne_ws_bytes {c : Nat} (h : isWs c = false) : c ≠ 32 ∧ c ≠ 9 ∧ c ≠ 10 ∧ c ≠ 13 := by
  refine ⟨?_, ?_, ?_, ?_⟩ <;> intro he <;> rw [he] at h <;> exact Bool.noConfusion h

theorem numLoop_mono (d : List Nat) : ∀ (fuel i : Nat) (v v2 : VersionRelation) (m : Nat), numLoop d fuel i v = some (.ok (v2, m)) → i ≤ m ∧ Peek d m = 41 := by
  intro fuel
  induction fuel with
  | zero =>
    intro i v v2 m h
    exact absurd h (by simp [numLoop])
  | succ n ih =>
    intro i v v2 m h
    simp only [numLoop] at h
    by_cases h0 : Peek d i = 0
    · rw [if_pos h0] at h
      simp at h
    · rw [if_neg h0] at h
      by_cases h41 : Peek d i = 41
      · rw [if_pos h41] at h
        simp only [Option.some.injEq, Except.ok.injEq, Prod.mk.injEq] at h
        obtain ⟨-, hm⟩ := h
        subst hm
        exact ⟨Nat.le_refl i, h41⟩
      · rw [if_neg h41] at h
        have hr := ih (i+1) _ _ _ h
        exact ⟨by omega, hr.2⟩

theorem parsePossibilityOperator_mono (d : List Nat) (i : Nat) (v v2 : VersionRelation) (k : Nat) (h : parsePossibilityOperator d i v = .ok (v2, k)) : eatWhitespace d i + 1 ≤ k := by
  unfold parsePossibilityOperator at h
  by_cases h61 : Peek d (eatWhitespace d i) = 61
  · rw [if_pos h61] at h
    simp only [Except.ok.injEq, Prod.mk.injEq] at h
    omega
  · rw [if_neg h61] at h
    by_cases hz : Peek d (eatWhitespace d i) = 0 ∨ Peek d (eatWhitespace d i + 1) = 0
    · rw [if_pos hz] at h
      exact absurd h (by simp)
    · rw [if_neg hz] at h
      by_cases hop : (Peek d (eatWhitespace d i) = 62 ∧ Peek d (eatWhitespace d i + 1) = 61)
          ∨ (Peek d (eatWhitespace d i) = 60 ∧ Peek d (eatWhitespace d i + 1) = 61)
          ∨ (Peek d (eatWhitespace d i) = 60 ∧ Peek d (eatWhitespace d i + 1) = 60)
          ∨ (Peek d (eatWhitespace d i) = 62 ∧ Peek d (eatWhitespace d i + 1) = 62)
      · rw [if_pos hop] at h
        simp only [Except.ok.injEq, Prod.mk.injEq] at h
        omega
      · rw [if_neg hop] at h
        exact absurd h (by simp)

theorem parsePossibilityVersion_mono (d : List Nat) (fuel i : Nat) (p p2 : Possibility) (i2 : Nat) (h : parsePossibilityVersion d fuel i p = some (.ok (p2, i2))) : eatWhitespace d i + 2 ≤ i2 := by
  unfold parsePossibilityVersion at h
  split at h
  · simp at h
  · rename_i ver k hop
    unfold parsePossibilityNumber at h
    split at h
    · simp at h
    · simp at h
    · rename_i ver2 m hnum
      simp only [Option.some.injEq, Except.ok.injEq, Prod.mk.injEq] at h
      have hk := parsePossibilityOperator_mono d _ _ _ _ hop
      have hwk : eatWhitespace d i + 1 ≤ eatWhitespace d (eatWhitespace d i + 1) := eatWhitespace_ge d _
      have hm := (numLoop_mono d _ _ _ _ _ hnum).1
      have hwm : k ≤ eatWhitespace d k := eatWhitespace_ge d k
      omega

theorem archTokLoop_mono (d : List Nat) : ∀ (fuel i : Nat) (arch : List Nat) (p p2 : Possibility) (i2 : Nat), archTokLoop d fuel i arch p = some (.ok (p2, i2)) → i ≤ i2 ∧ (Peek d i2 = 93 ∨ Peek d i2 = 32) := by
  intro fuel
  induction fuel with
  | zero =>
    intro i arch p p2 i2 h
    exact absurd h (by simp [archTokLoop])
  | succ n ih =>
    intro i arch p p2 i2 h
    simp only [archTokLoop] at h
    by_cases h0 : Peek d i = 0
    · rw [if_pos h0] at h
      simp at h
    · rw [if_neg h0] at h
      by_cases h33 : Peek d i = 33
      · rw [if_pos h33] at h
        simp at h
      · rw [if_neg h33] at h
        by_cases hend : Peek d i = 93 ∨ Peek d i = 32
        · rw [if_pos hend] at h
          simp only [ParseArch, Option.some.injEq, Except.ok.injEq, Prod.mk.injEq] at h
          obtain ⟨-, hm⟩ := h
          subst hm
          exact ⟨Nat.le_refl i, hend⟩
        · rw [if_neg hend] at h
          have hr := ih (i+1) _ _ _ _ h
          exact ⟨by omega, hr.2⟩

theorem parsePossibilityArch_mono (d : List Nat) (fuel i : Nat) (p p2 : Possibility) (i2 : Nat) (h : parsePossibilityArch d fuel i p = some (.ok (p2, i2))) : i ≤ i2 ∧ (Peek d i2 = 93 ∨ Peek d i2 = 32) := by
  unfold parsePossibilityArch at h
  have hr := archTokLoop_mono d _ _ _ _ _ _ h
  have hw := eatWhitespace_ge d i
  exact ⟨by omega, hr.2⟩

theorem parsePossibilityArch_strict (d : List Nat) (fuel i : Nat) (p p2 : Possibility) (i2 : Nat) (h0 : Peek d i ≠ 0) (h93 : Peek d i ≠ 93) (h : parsePossibilityArch d fuel i p = some (.ok (p2, i2))) : i + 1 ≤ i2 := by
  by_cases hws : isWs (Peek d i) = true
  · have hgt := eatWhitespace_gt_of_ws hws
    unfold parsePossibilityArch at h
    have hr := (archTokLoop_mono d _ _ _ _ _ _ h).1
    omega
  · have hweq : eatWhitespace d i = i := eatWhitespace_eq_self (Bool.eq_false_iff.mpr (fun hc => hws hc))
    unfold parsePossibilityArch at h
    rw [hweq] at h
    cases fuel with
    | zero => exact absurd h (by simp [archTokLoop])
    | succ n =>
      simp only [archTokLoop] at h
      rw [if_neg h0] at h
      by_cases h33 : Peek d i = 33
      · rw [if_pos h33] at h
        simp at h
      · rw [if_neg h33] at h
        have h32 : Peek d i ≠ 32 := (ne_ws_bytes (Bool.eq_false_iff.mpr (fun hc => hws hc))).1
        rw [if_neg (by tauto : ¬(Peek d i = 93 ∨ Peek d i = 32))] at h
        have hr := (archTokLoop_mono d _ _ _ _ _ _ h).1
        omega

theorem archsLoop_mono (d : List Nat) : ∀ (fuel i : Nat) (p p2 : Possibility) (i2 : Nat), archsLoop d fuel i p = some (.ok (p2, i2)) → i + 1 ≤ i2 := by
  intro fuel
  induction fuel with
  | zero =>
    intro i p p2 i2 h
    exact absurd h (by simp [archsLoop])
  | succ n ih =>
    intro i p p2 i2 h
    simp only [archsLoop] at h
    by_cases h0 : Peek d i = 0
    · rw [if_pos h0] at h
      simp at h
    · rw [if_neg h0] at h
      by_cases h93 : Peek d i = 93
      · rw [if_pos h93] at h
        simp only [Option.some.injEq, Except.ok.injEq, Prod.mk.injEq] at h
        omega
      · rw [if_neg h93] at h
        cases ha : parsePossibilityArch d (n+1) i p with
        | none =>
          rw [ha] at h
          simp at h
        | some r =>
          cases r with
          | error e =>
            rw [ha] at h
            simp at h
          | ok pj =>
            obtain ⟨q, j⟩ := pj
            rw [ha] at h
            have hstep := parsePossibilityArch_strict d _ _ _ _ _ h0 h93 ha
            have hr := ih j _ _ _ h
            omega

theorem parsePossibilityArchs_mono (d : List Nat) (fuel i : Nat) (p p2 : Possibility) (i2 : Nat) (h : parsePossibilityArchs d fuel i p = some (.ok (p2, i2))) : eatWhitespace d i + 2 ≤ i2 := by
  unfold parsePossibilityArchs at h
  by_cases h33 : Peek d (eatWhitespace d i + 1) = 33
  · rw [if_pos h33] at h
    have hr := archsLoop_mono d _ _ _ _ _ h
    omega
  · rw [if_neg h33] at h
    have hr := archsLoop_mono d _ _ _ _ _ h
    omega

theorem parsePossibilityControllers_mono (d : List Nat) : ∀ (fuel i : Nat) (p p2 : Possibility) (i2 : Nat), parsePossibilityControllers d fuel i p = some (.ok (p2, i2)) → eatWhitespace d i ≤ i2 ∧ (Peek d i2 = 44 ∨ Peek d i2 = 124 ∨ Peek d i2 = 0) := by
  intro fuel
  induction fuel with
  | zero =>
    intro i p p2 i2 h
    exact absurd h (by simp [parsePossibilityControllers])
  | succ n ih =>
    intro i p p2 i2 h
    simp only [parsePossibilityControllers] at h
    by_cases hterm : Peek d (eatWhitespace d i) = 44 ∨ Peek d (eatWhitespace d i) = 124 ∨ Peek d (eatWhitespace d i) = 0
    · rw [if_pos hterm] at h
      simp only [Option.some.injEq, Except.ok.injEq, Prod.mk.injEq] at h
      obtain ⟨-, hm⟩ := h
      subst hm
      exact ⟨Nat.le_refl _, hterm⟩
    · rw [if_neg hterm] at h
      by_cases h40 : Peek d (eatWhitespace d i) = 40
      · rw [if_pos h40] at h
        by_cases hv : p.Version.isSome
        · rw [if_pos hv] at h
          simp at h
        · rw [if_neg hv] at h
          cases hver : parsePossibilityVersion d (n+1) (eatWhitespace d i) p with
          | none =>
            rw [hver] at h
            simp at h
          | some r =>
            cases r with
            | error e =>
              rw [hver] at h
              simp at h
            | ok pj =>
              obtain ⟨q, j⟩ := pj
              rw [hver] at h
              have hstep := parsePossibilityVersion_mono d _ _ _ _ _ hver
              have hid := eatWhitespace_idem d i
              have hr := ih j _ _ _ h
              have hj := eatWhitespace_ge d j
              exact ⟨by omega, hr.2⟩
      · rw [if_neg h40] at h
        by_cases h91 : Peek d (eatWhitespace d i) = 91
        · rw [if_pos h91] at h
          by_cases harch : p.Arches.Arches ≠ []
          · rw [if_pos harch] at h
            simp at h
          · rw [if_neg harch] at h
            cases harchs : parsePossibilityArchs d (n+1) (eatWhitespace d i) p with
            | none =>
              rw [harchs] at h
              simp at h
            | some r =>
              cases r with
              | error e =>
                rw [harchs] at h
                simp at h
              | ok pj =>
                obtain ⟨q, j⟩ := pj
                rw [harchs] at h
                have hstep := parsePossibilityArchs_mono d _ _ _ _ _ harchs
                have hid := eatWhitespace_idem d i
                have hr := ih j _ _ _ h
                have hj := eatWhitespace_ge d j
                exact ⟨by omega, hr.2⟩
        · rw [if_neg h91] at h
          simp at h

theorem possLoop_mono (d : List Nat) : ∀ (fuel i : Nat) (ret : Possibility) (rel rel2 : Relation) (i2 : Nat), possLoop d fuel i ret rel = some (.ok (rel2, i2)) → i ≤ i2 := by
  intro fuel
  induction fuel with
  | zero =>
    intro i ret rel rel2 i2 h
    exact absurd h (by simp [possLoop])
  | succ n ih =>
    intro i ret rel rel2 i2 h
    simp only [possLoop] at h
    by_cases h32 : Peek d i = 32
    · rw [if_pos h32] at h
      cases hc : parsePossibilityControllers d (n+1) i ret with
      | none =>
        rw [hc] at h
        simp at h
      | some r =>
        cases r with
        | error e =>
          rw [hc] at h
          simp at h
        | ok pj =>
          obtain ⟨q, j⟩ := pj
          rw [hc] at h
          have hstep := (parsePossibilityControllers_mono d _ _ _ _ _ hc).1
          have hw := eatWhitespace_ge d i
          have hr := ih j _ _ _ _ h
          omega
    · rw [if_neg h32] at h
      by_cases hterm : Peek d i = 44 ∨ Peek d i = 124 ∨ Peek d i = 0
      · rw [if_pos hterm] at h
        by_cases hname : ret.Name = []
        · rw [if_pos hname] at h
          simp at h
        · rw [if_neg hname] at h
          simp only [Option.some.injEq, Except.ok.injEq, Prod.mk.injEq] at h
          omega
      · rw [if_neg hterm] at h
        have hr := ih (i+1) _ _ _ _ h
        omega

theorem parsePossibility_strict (d : List Nat) (fuel i : Nat) (rel rel2 : Relation) (i2 : Nat) (hterm : ¬(Peek d i = 44 ∨ Peek d i = 124 ∨ Peek d i = 0)) (h : parsePossibility d fuel i rel = some (.ok (rel2, i2))) : i + 1 ≤ i2 := by
  by_cases hws : isWs (Peek d i) = true
  · have hgt := eatWhitespace_gt_of_ws hws
    unfold parsePossibility at h
    have hr := possLoop_mono d _ _ _ _ _ _ h
    omega
  · have hwf : isWs (Peek d i) = false := Bool.eq_false_iff.mpr (fun hc => hws hc)
    have hweq : eatWhitespace d i = i := eatWhitespace_eq_self hwf
    unfold parsePossibility at h
    rw [hweq] at h
    cases fuel with
    | zero => exact absurd h (by simp [possLoop])
    | succ n =>
      simp only [possLoop] at h
      have h32 : Peek d i ≠ 32 := (ne_ws_bytes hwf).1
      rw [if_neg h32, if_neg hterm] at h
      have hr := possLoop_mono d _ _ _ _ _ _ h
      omega

theorem relLoop_mono (d : List Nat) : ∀ (fuel i : Nat) (ret : Relation) (dep dep2 : Depedency) (i2 : Nat), relLoop d fuel i ret dep = some (.ok (dep2, i2)) → i ≤ i2 ∧ (Peek d i2 = 0 ∨ Peek d i2 = 44) := by
  intro fuel
  induction fuel with
  | zero =>
    intro i ret dep dep2 i2 h
    exact absurd h (by simp [relLoop])
  | succ n ih =>
    intro i ret dep dep2 i2 h
    simp only [relLoop] at h
    by_cases hterm : Peek d i = 0 ∨ Peek d i = 44
    · rw [if_pos hterm] at h
      simp only [Option.some.injEq, Except.ok.injEq, Prod.mk.injEq] at h
      obtain ⟨-, hm⟩ := h
      subst hm
      exact ⟨Nat.le_refl _, hterm⟩
    · rw [if_neg hterm] at h
      by_cases h124 : Peek d i = 124
      · rw [if_pos h124] at h
        have hr := ih _ _ _ _ _ h
        have hw := eatWhitespace_ge d (i+1)
        exact ⟨by omega, hr.2⟩
      · rw [if_neg h124] at h
        cases hp : parsePossibility d (n+1) i ret with
        | none =>
          rw [hp] at h
          simp at h
        | some r =>
          cases r with
          | error e =>
            rw [hp] at h
            simp at h
          | ok pj =>
            obtain ⟨q, j⟩ := pj
            rw [hp] at h
            have hstep := parsePossibility_strict d _ _ _ _ _ (by tauto) hp
            have hr := ih _ _ _ _ _ h
            exact ⟨by omega, hr.2⟩

theorem parseRelation_strict (d : List Nat) (fuel i : Nat) (dep dep2 : Depedency) (i2 : Nat) (hterm : ¬(Peek d i = 0 ∨ Peek d i = 44)) (h : parseRelation d fuel i dep = some (.ok (dep2, i2))) : i + 1 ≤ i2 ∧ (Peek d i2 = 0 ∨ Peek d i2 = 44) := by
  by_cases hws : isWs (Peek d i) = true
  · have hgt := eatWhitespace_gt_of_ws hws
    unfold parseRelation at h
    have hr := relLoop_mono d _ _ _ _ _ _ h
    exact ⟨by omega, hr.2⟩
  · have hwf : isWs (Peek d i) = false := Bool.eq_false_iff.mpr (fun hc => hws hc)
    have hweq : eatWhitespace d i = i := eatWhitespace_eq_self hwf
    unfold parseRelation at h
    rw [hweq] at h
    cases fuel with
    | zero => exact absurd h (by simp [relLoop])
    | succ n =>
      simp only [relLoop] at h
      rw [if_neg hterm] at h
      by_cases h124 : Peek d i = 124
      · rw [if_pos h124] at h
        have hr := relLoop_mono d _ _ _ _ _ _ h
        have hw := eatWhitespace_ge d (i+1)
        exact ⟨by omega, hr.2⟩
      · rw [if_neg h124] at h
        cases hp : parsePossibility d (n+1) i ⟨[]⟩ with
        | none =>
          rw [hp] at h
          simp at h
        | some r =>
          cases r with
          | error e =>
            rw [hp] at h
            simp at h
          | ok pj =>
            obtain ⟨q, j⟩ := pj
            rw [hp] at h
            have hstep := parsePossibility_strict d _ _ _ _ _ (by tauto) hp
            have hr := relLoop_mono d _ _ _ _ _ _ h
            exact ⟨by omega, hr.2⟩

theorem numLoop_isSome (d : List Nat) : ∀ (fuel i : Nat) (v : VersionRelation), d.length - i < fuel → (numLoop d fuel i v).isSome = true := by
  intro fuel
  induction fuel with
  | zero =>
    intro i v h
    omega
  | succ n ih =>
    intro i v h
    simp only [numLoop]
    by_cases h0 : Peek d i = 0
    · rw [if_pos h0]
      rfl
    · rw [if_neg h0]
      by_cases h41 : Peek d i = 41
      · rw [if_pos h41]
        rfl
      · rw [if_neg h41]
        have hlt : i < d.length := Peek_lt h0
        exact ih (i+1) _ (by omega)

theorem parsePossibilityNumber_isSome (d : List Nat) (fuel i : Nat) (v : VersionRelation) (h : d.length - i < fuel) : (parsePossibilityNumber d fuel i v).isSome = true := by
  unfold parsePossibilityNumber
  have hw := eatWhitespace_ge d i
  exact numLoop_isSome d fuel _ v (by omega)

theorem parsePossibilityVersion_isSome (d : List Nat) (fuel i : Nat) (p : Possibility) (h : d.length - i < fuel) : (parsePossibilityVersion d fuel i p).isSome = true := by
  unfold parsePossibilityVersion
  split
  · rfl
  · rename_i ver k hop
    have hk := parsePossibilityOperator_mono d _ _ _ _ hop
    have hw1 := eatWhitespace_ge d i
    have hw2 := eatWhitespace_ge d (eatWhitespace d i + 1)
    have hs := parsePossibilityNumber_isSome d fuel k ver (by omega)
    cases hn : parsePossibilityNumber d fuel k ver with
    | none =>
      rw [hn] at hs
      exact absurd hs (by simp)
    | some r =>
      cases r with
      | error e => rfl
      | ok vm =>
        obtain ⟨ver2, m⟩ := vm
        rfl

theorem archTokLoop_isSome (d : List Nat) : ∀ (fuel i : Nat) (arch : List Nat) (p : Possibility), d.length - i < fuel → (archTokLoop d fuel i arch p).isSome = true := by
  intro fuel
  induction fuel with
  | zero =>
    intro i arch p h
    omega
  | succ n ih =>
    intro i arch p h
    simp only [archTokLoop]
    by_cases h0 : Peek d i = 0
    · rw [if_pos h0]
      rfl
    · rw [if_neg h0]
      by_cases h33 : Peek d i = 33
      · rw [if_pos h33]
        rfl
      · rw [if_neg h33]
        by_cases hend : Peek d i = 93 ∨ Peek d i = 32
        · rw [if_pos hend]
          rfl
        · rw [if_neg hend]
          have hlt : i < d.length := Peek_lt h0
          exact ih (i+1) _ _ (by omega)

theorem parsePossibilityArch_isSome (d : List Nat) (fuel i : Nat) (p : Possibility) (h : d.length - i < fuel) : (parsePossibilityArch d fuel i p).isSome = true := by
  unfold parsePossibilityArch
  have hw := eatWhitespace_ge d i
  exact archTokLoop_isSome d fuel _ [] p (by omega)

theorem archsLoop_isSome (d : List Nat) : ∀ (fuel i : Nat) (p : Possibility), d.length - i < fuel → (archsLoop d fuel i p).isSome = true := by
  intro fuel
  induction fuel with
  | zero =>
    intro i p h
    omega
  | succ n ih =>
    intro i p h
    simp only [archsLoop]
    by_cases h0 : Peek d i = 0
    · rw [if_pos h0]
      rfl
    · rw [if_neg h0]
      by_cases h93 : Peek d i = 93
      · rw [if_pos h93]
        rfl
      · rw [if_neg h93]
        have hs := parsePossibilityArch_isSome d (n+1) i p (by omega)
        cases ha : parsePossibilityArch d (n+1) i p with
        | none =>
          rw [ha] at hs
          exact absurd hs (by simp)
        | some r =>
          cases r with
          | error e => rfl
          | ok pj =>
            obtain ⟨q, j⟩ := pj
            have hstep := parsePossibilityArch_strict d _ _ _ _ _ h0 h93 ha
            have hlt : i < d.length := Peek_lt h0
            exact ih j q (by omega)

theorem parsePossibilityArchs_isSome (d : List Nat) (fuel i : Nat) (p : Possibility) (h : d.length - i < fuel) : (parsePossibilityArchs d fuel i p).isSome = true := by
  unfold parsePossibilityArchs
  have hw := eatWhitespace_ge d i
  by_cases h33 : Peek d (eatWhitespace d i + 1) = 33
  · rw [if_pos h33]
    exact archsLoop_isSome d fuel _ _ (by omega)
  · rw [if_neg h33]
    exact archsLoop_isSome d fuel _ _ (by omega)

theorem parsePossibilityControllers_isSome (d : List Nat) : ∀ (fuel i : Nat) (p : Possibility), d.length - i < fuel → (parsePossibilityControllers d fuel i p).isSome = true := by
  intro fuel
  induction fuel with
  | zero =>
    intro i p h
    omega
  | succ n ih =>
    intro i p h
    simp only [parsePossibilityControllers]
    have hw := eatWhitespace_ge d i
    by_cases hterm : Peek d (eatWhitespace d i) = 44 ∨ Peek d (eatWhitespace d i) = 124 ∨ Peek d (eatWhitespace d i) = 0
    · rw [if_pos hterm]
      rfl
    · rw [if_neg hterm]
      by_cases h40 : Peek d (eatWhitespace d i) = 40
      · rw [if_pos h40]
        by_cases hv : p.Version.isSome = true
        · rw [if_pos hv]
          rfl
        · rw [if_neg hv]
          have hlt : eatWhitespace d i < d.length := Peek_lt (by rw [h40]; omega)
          have hs := parsePossibilityVersion_isSome d (n+1) (eatWhitespace d i) p (by omega)
          cases hver : parsePossibilityVersion d (n+1) (eatWhitespace d i) p with
          | none =>
            rw [hver] at hs
            exact absurd hs (by simp)
          | some r =>
            cases r with
            | error e => rfl
            | ok pj =>
              obtain ⟨q, j⟩ := pj
              have hstep := parsePossibilityVersion_mono d _ _ _ _ _ hver
              have hid := eatWhitespace_idem d i
              exact ih j q (by omega)
      · rw [if_neg h40]
        by_cases h91 : Peek d (eatWhitespace d i) = 91
        · rw [if_pos h91]
          by_cases harch : p.Arches.Arches ≠ []
          · rw [if_pos harch]
            rfl
          · rw [if_neg harch]
            have hlt : eatWhitespace d i < d.length := Peek_lt (by rw [h91]; omega)
            have hs := parsePossibilityArchs_isSome d (n+1) (eatWhitespace d i) p (by omega)
            cases harchs : parsePossibilityArchs d (n+1) (eatWhitespace d i) p with
            | none =>
              rw [harchs] at hs
              exact absurd hs (by simp)
            | some r =>
              cases r with
              | error e => rfl
              | ok pj =>
                obtain ⟨q, j⟩ := pj
                have hstep := parsePossibilityArchs_mono d _ _ _ _ _ harchs
                have hid := eatWhitespace_idem d i
                exact ih j q (by omega)
        · rw [if_neg h91]
          rfl

theorem possLoop_isSome (d : List Nat) : ∀ (fuel i : Nat) (ret : Possibility) (rel : Relation), d.length - i < fuel → (possLoop d fuel i ret rel).isSome = true := by
  intro fuel
  induction fuel with
  | zero =>
    intro i ret rel h
    omega
  | succ n ih =>
    intro i ret rel h
    simp only [possLoop]
    by_cases h32 : Peek d i = 32
    · rw [if_pos h32]
      have hs := parsePossibilityControllers_isSome d (n+1) i ret (by omega)
      cases hc : parsePossibilityControllers d (n+1) i ret with
      | none =>
        rw [hc] at hs
        exact absurd hs (by simp)
      | some r =>
        cases r with
        | error e => rfl
        | ok pj =>
          obtain ⟨q, j⟩ := pj
          have hstep := (parsePossibilityControllers_mono d _ _ _ _ _ hc).1
          have hgt : i + 1 ≤ eatWhitespace d i := eatWhitespace_gt_of_ws (by rw [h32]; exact isWs_32)
          have hlt : i < d.length := Peek_lt (by rw [h32]; omega)
          exact ih j q rel (by omega)
    · rw [if_neg h32]
      by_cases hterm : Peek d i = 44 ∨ Peek d i = 124 ∨ Peek d i = 0
      · rw [if_pos hterm]
        by_cases hname : ret.Name = []
        · rw [if_pos hname]
          rfl
        · rw [if_neg hname]
          rfl
      · rw [if_neg hterm]
        have hlt : i < d.length := Peek_lt (by tauto)
        exact ih (i+1) _ rel (by omega)

theorem parsePossibility_isSome (d : List Nat) (fuel i : Nat) (rel : Relation) (h : d.length - i < fuel) : (parsePossibility d fuel i rel).isSome = true := by
  unfold parsePossibility
  have hw := eatWhitespace_ge d i
  exact possLoop_isSome d fuel _ initPossibility rel (by omega)

theorem relLoop_isSome (d : List Nat) : ∀ (fuel i : Nat) (ret : Relation) (dep : Depedency), d.length - i < fuel → (relLoop d fuel i ret dep).isSome = true := by
  intro fuel
  induction fuel with
  | zero =>
    intro i ret dep h
    omega
  | succ n ih =>
    intro i ret dep h
    simp only [relLoop]
    by_cases hterm : Peek d i = 0 ∨ Peek d i = 44
    · rw [if_pos hterm]
      rfl
    · rw [if_neg hterm]
      by_cases h124 : Peek d i = 124
      · rw [if_pos h124]
        have hlt : i < d.length := Peek_lt (by rw [h124]; omega)
        have hw := eatWhitespace_ge d (i+1)
        exact ih _ ret dep (by omega)
      · rw [if_neg h124]
        have hs := parsePossibility_isSome d (n+1) i ret (by omega)
        cases hp : parsePossibility d (n+1) i ret with
        | none =>
          rw [hp] at hs
          exact absurd hs (by simp)
        | some r =>
          cases r with
          | error e => rfl
          | ok pj =>
            obtain ⟨q, j⟩ := pj
            have hstep := parsePossibility_strict d _ _ _ _ _ (by tauto) hp
            have hlt : i < d.length := Peek_lt (by tauto)
            exact ih j q dep (by omega)

theorem parseRelation_isSome (d : List Nat) (fuel i : Nat) (dep : Depedency) (h : d.length - i < fuel) : (parseRelation d fuel i dep).isSome = true := by
  unfold parseRelation
  have hw := eatWhitespace_ge d i
  exact relLoop_isSome d fuel _ _ dep (by omega)

theorem depLoop_isSome (d : List Nat) : ∀ (fuel i : Nat) (dep : Depedency), d.length - i < fuel → (depLoop d fuel i dep).isSome = true := by
  intro fuel
  induction fuel with
  | zero =>
    intro i dep h
    omega
  | succ n ih =>
    intro i dep h
    simp only [depLoop]
    by_cases h0 : Peek d i = 0
    · rw [if_pos h0]
      rfl
    · rw [if_neg h0]
      by_cases h44 : Peek d i = 44
      · rw [if_pos h44]
        have hlt : i < d.length := Peek_lt h0
        have hw := eatWhitespace_ge d (i+1)
        exact ih _ dep (by omega)
      · rw [if_neg h44]
        have hs := parseRelation_isSome d (n+1) i dep (by omega)
        cases hp : parseRelation d (n+1) i dep with
        | none =>
          rw [hp] at hs
          exact absurd hs (by simp)
        | some r =>
          cases r with
          | error e => rfl
          | ok pj =>
            obtain ⟨q, j⟩ := pj
            have hstep := (parseRelation_strict d _ _ _ _ _ (by tauto) hp).1
            have hlt : i < d.length := Peek_lt h0
            exact ih j q (by omega)

theorem parseDependency_isSome (d : List Nat) (fuel i : Nat) (dep : Depedency) (h : d.length - i < fuel) : (parseDependency d fuel i dep).isSome = true := by
  unfold parseDependency
  have hw := eatWhitespace_ge d i
  exact depLoop_isSome d fuel _ dep (by omega)

theorem Parse_isSome (d : List Nat) : (Parse d).isSome = true := by
  unfold Parse
  have hs := parseDependency_isSome d (d.length + 1) 0 ⟨[]⟩ (by omega)
  cases hp : parseDependency d (d.length + 1) 0 ⟨[]⟩ with
  | none =>
    rw [hp] at hs
    exact absurd hs (by simp)
  | some r =>
    cases r with
    | error e => rfl
    | ok pj =>
      obtain ⟨q, j⟩ := pj
      rfl

theorem numLoop_fuelStep (d : List Nat) : ∀ (fuel i : Nat) (v : VersionRelation) (r : Except ParseErr (VersionRelation × Nat)), numLoop d fuel i v = some r → numLoop d (fuel+1) i v = some r := by
  intro fuel
  induction fuel with
  | zero =>
    intro i v r h
    exact absurd h (by simp [numLoop])
  | succ n ih =>
    intro i v r h
    simp only [numLoop] at h
    rw [numLoop]
    by_cases h0 : Peek d i = 0
    · rw [if_pos h0] at h ⊢
      exact h
    · rw [if_neg h0] at h ⊢
      by_cases h41 : Peek d i = 41
      · rw [if_pos h41] at h ⊢
        exact h
      · rw [if_neg h41] at h ⊢
        exact ih _ _ _ h

theorem parsePossibilityNumber_fuelStep (d : List Nat) (fuel i : Nat) (v : VersionRelation) (r : Except ParseErr (VersionRelation × Nat)) (h : parsePossibilityNumber d fuel i v = some r) : parsePossibilityNumber d (fuel+1) i v = some r := by
  unfold parsePossibilityNumber at h ⊢
  exact numLoop_fuelStep d fuel _ v r h

theorem parsePossibilityVersion_fuelStep (d : List Nat) (fuel i : Nat) (p : Possibility) (r : Except ParseErr (Possibility × Nat)) (h : parsePossibilityVersion d fuel i p = some r) : parsePossibilityVersion d (fuel+1) i p = some r := by
  unfold parsePossibilityVersion at h ⊢
  split at h
  · exact h
  · rename_i ver k hop
    cases hn : parsePossibilityNumber d fuel k ver with
    | none =>
      rw [hn] at h
      simp at h
    | some v =>
      rw [hn] at h
      rw [parsePossibilityNumber_fuelStep d fuel k ver v hn]
      exact h

theorem archTokLoop_fuelStep (d : List Nat) : ∀ (fuel i : Nat) (arch : List Nat) (p : Possibility) (r : Except ParseErr (Possibility × Nat)), archTokLoop d fuel i arch p = some r → archTokLoop d (fuel+1) i arch p = some r := by
  intro fuel
  induction fuel with
  | zero =>
    intro i arch p r h
    exact absurd h (by simp [archTokLoop])
  | succ n ih =>
    intro i arch p r h
    simp only [archTokLoop] at h
    rw [archTokLoop]
    by_cases h0 : Peek d i = 0
    · rw [if_pos h0] at h ⊢
      exact h
    · rw [if_neg h0] at h ⊢
      by_cases h33 : Peek d i = 33
      · rw [if_pos h33] at h ⊢
        exact h
      · rw [if_neg h33] at h ⊢
        by_cases hend : Peek d i = 93 ∨ Peek d i = 32
        · rw [if_pos hend] at h ⊢
          exact h
        · rw [if_neg hend] at h ⊢
          exact ih _ _ _ _ h

theorem parsePossibilityArch_fuelStep (d : List Nat) (fuel i : Nat) (p : Possibility) (r : Except ParseErr (Possibility × Nat)) (h : parsePossibilityArch d fuel i p = some r) : parsePossibilityArch d (fuel+1) i p = some r := by
  unfold parsePossibilityArch at h ⊢
  exact archTokLoop_fuelStep d fuel _ [] p r h

theorem archsLoop_fuelStep (d : List Nat) : ∀ (fuel i : Nat) (p : Possibility) (r : Except ParseErr (Possibility × Nat)), archsLoop d fuel i p = some r → archsLoop d (fuel+1) i p = some r := by
  intro fuel
  induction fuel with
  | zero =>
    intro i p r h
    exact absurd h (by simp [archsLoop])
  | succ n ih =>
    intro i p r h
    simp only [archsLoop] at h
    rw [archsLoop]
    by_cases h0 : Peek d i = 0
    · rw [if_pos h0] at h ⊢
      exact h
    · rw [if_neg h0] at h ⊢
      by_cases h93 : Peek d i = 93
      · rw [if_pos h93] at h ⊢
        exact h
      · rw [if_neg h93] at h ⊢
        cases ha : parsePossibilityArch d (n+1) i p with
        | none =>
          rw [ha] at h
          simp at h
        | some v =>
          rw [ha] at h
          rw [parsePossibilityArch_fuelStep d (n+1) i p v ha]
          cases v with
          | error e => exact h
          | ok pj =>
            obtain ⟨q, j⟩ := pj
            exact ih _ _ _ h

theorem parsePossibilityArchs_fuelStep (d : List Nat) (fuel i : Nat) (p : Possibility) (r : Except ParseErr (Possibility × Nat)) (h : parsePossibilityArchs d fuel i p = some r) : parsePossibilityArchs d (fuel+1) i p = some r := by
  unfold parsePossibilityArchs at h ⊢
  by_cases h33 : Peek d (eatWhitespace d i + 1) = 33
  · rw [if_pos h33] at h ⊢
    exact archsLoop_fuelStep d fuel _ _ r h
  · rw [if_neg h33] at h ⊢
    exact archsLoop_fuelStep d fuel _ _ r h

theorem parsePossibilityControllers_fuelStep (d : List Nat) : ∀ (fuel i : Nat) (p : Possibility) (r : Except ParseErr (Possibility × Nat)), parsePossibilityControllers d fuel i p = some r → parsePossibilityControllers d (fuel+1) i p = some r := by
  intro fuel
  induction fuel with
  | zero =>
    intro i p r h
    exact absurd h (by simp [parsePossibilityControllers])
  | succ n ih =>
    intro i p r h
    simp only [parsePossibilityControllers] at h
    rw [parsePossibilityControllers]
    by_cases hterm : Peek d (eatWhitespace d i) = 44 ∨ Peek d (eatWhitespace d i) = 124 ∨ Peek d (eatWhitespace d i) = 0
    · rw [if_pos hterm] at h ⊢
      exact h
    · rw [if_neg hterm] at h ⊢
      by_cases h40 : Peek d (eatWhitespace d i) = 40
      · rw [if_pos h40] at h ⊢
        by_cases hv : p.Version.isSome = true
        · rw [if_pos hv] at h ⊢
          exact h
        · rw [if_neg hv] at h ⊢
          cases hver : parsePossibilityVersion d (n+1) (eatWhitespace d i) p with
          | none =>
            rw [hver] at h
            simp at h
          | some v =>
            rw [hver] at h
            rw [parsePossibilityVersion_fuelStep d (n+1) _ p v hver]
            cases v with
            | error e => exact h
            | ok pj =>
              obtain ⟨q, j⟩ := pj
              exact ih _ _ _ h
      · rw [if_neg h40] at h ⊢
        by_cases h91 : Peek d (eatWhitespace d i) = 91
        · rw [if_pos h91] at h ⊢
          by_cases harch : p.Arches.Arches ≠ []
          · rw [if_pos harch] at h ⊢
            exact h
          · rw [if_neg harch] at h ⊢
            cases harchs : parsePossibilityArchs d (n+1) (eatWhitespace d i) p with
            | none =>
              rw [harchs] at h
              simp at h
            | some v =>
              rw [harchs] at h
              rw [parsePossibilityArchs_fuelStep d (n+1) _ p v harchs]
              cases v with
              | error e => exact h
              | ok pj =>
                obtain ⟨q, j⟩ := pj
                exact ih _ _ _ h
        · rw [if_neg h91] at h ⊢
          exact h

theorem possLoop_fuelStep (d : List Nat) : ∀ (fuel i : Nat) (ret : Possibility) (rel : Relation) (r : Except ParseErr (Relation × Nat)), possLoop d fuel i ret rel = some r → possLoop d (fuel+1) i ret rel = some r := by
  intro fuel
  induction fuel with
  | zero =>
    intro i ret rel r h
    exact absurd h (by simp [possLoop])
  | succ n ih =>
    intro i ret rel r h
    simp only [possLoop] at h
    rw [possLoop]
    by_cases h32 : Peek d i = 32
    · rw [if_pos h32] at h ⊢
      cases hc : parsePossibilityControllers d (n+1) i ret with
      | none =>
        rw [hc] at h
        simp at h
      | some v =>
        rw [hc] at h
        rw [parsePossibilityControllers_fuelStep d (n+1) i ret v hc]
        cases v with
        | error e => exact h
        | ok pj =>
          obtain ⟨q, j⟩ := pj
          exact ih _ _ _ _ h
    · rw [if_neg h32] at h ⊢
      by_cases hterm : Peek d i = 44 ∨ Peek d i = 124 ∨ Peek d i = 0
      · rw [if_pos hterm] at h ⊢
        exact h
      · rw [if_neg hterm] at h ⊢
        exact ih _ _ _ _ h

theorem parsePossibility_fuelStep (d : List Nat) (fuel i : Nat) (rel : Relation) (r : Except ParseErr (Relation × Nat)) (h : parsePossibility d fuel i rel = some r) : parsePossibility d (fuel+1) i rel = some r := by
  unfold parsePossibility at h ⊢
  exact possLoop_fuelStep d fuel _ initPossibility rel r h

theorem relLoop_fuelStep (d : List Nat) : ∀ (fuel i : Nat) (ret : Relation) (dep : Depedency) (r : Except ParseErr (Depedency × Nat)), relLoop d fuel i ret dep = some r → relLoop d (fuel+1) i ret dep = some r := by
  intro fuel
  induction fuel with
  | zero =>
    intro i ret dep r h
    exact absurd h (by simp [relLoop])
  | succ n ih =>
    intro i ret dep r h
    simp only [relLoop] at h
    rw [relLoop]
    by_cases hterm : Peek d i = 0 ∨ Peek d i = 44
    · rw [if_pos hterm] at h ⊢
      exact h
    · rw [if_neg hterm] at h ⊢
      by_cases h124 : Peek d i = 124
      · rw [if_pos h124] at h ⊢
        exact ih _ _ _ _ h
      · rw [if_neg h124] at h ⊢
        cases hp : parsePossibility d (n+1) i ret with
        | none =>
          rw [hp] at h
          simp at h
        | some v =>
          rw [hp] at h
          rw [parsePossibility_fuelStep d (n+1) i ret v hp]
          cases v with
          | error e => exact h
          | ok pj =>
            obtain ⟨q, j⟩ := pj
            exact ih _ _ _ _ h

theorem parseRelation_fuelStep (d : List Nat) (fuel i : Nat) (dep : Depedency) (r : Except ParseErr (Depedency × Nat)) (h : parseRelation d fuel i dep = some r) : parseRelation d (fuel+1) i dep = some r := by
  unfold parseRelation at h ⊢
  exact relLoop_fuelStep d fuel _ _ dep r h

theorem depLoop_fuelStep (d : List Nat) : ∀ (fuel i : Nat) (dep : Depedency) (r : Except ParseErr (Depedency × Nat)), depLoop d fuel i dep = some r → depLoop d (fuel+1) i dep = some r := by
  intro fuel
  induction fuel with
  | zero =>
    intro i dep r h
    exact absurd h (by simp [depLoop])
  | succ n ih =>
    intro i dep r h
    simp only [depLoop] at h
    rw [depLoop]
    by_cases h0 : Peek d i = 0
    · rw [if_pos h0] at h ⊢
      exact h
    · rw [if_neg h0] at h ⊢
      by_cases h44 : Peek d i = 44
      · rw [if_pos h44] at h ⊢
        exact ih _ _ _ h
      · rw [if_neg h44] at h ⊢
        cases hp : parseRelation d (n+1) i dep with
        | none =>
          rw [hp] at h
          simp at h
        | some v =>
          rw [hp] at h
          rw [parseRelation_fuelStep d (n+1) i dep v hp]
          cases v with
          | error e => exact h
          | ok pj =>
            obtain ⟨q, j⟩ := pj
            exact ih _ _ _ h

theorem depLoop_fuelMono (d : List Nat) (fuel fuel' i : Nat) (dep : Depedency) (r : Except ParseErr (Depedency × Nat)) (hle : fuel ≤ fuel') (h : depLoop d fuel i dep = some r) : depLoop d fuel' i dep = some r := by
  induction hle with
  | refl => exact h
  | step ih => exact depLoop_fuelStep d _ i dep r (by assumption)

theorem possLoop_appends (d : List Nat) : ∀ (fuel i : Nat) (ret : Possibility) (rel rel2 : Relation) (i2 : Nat), possLoop d fuel i ret rel = some (.ok (rel2, i2)) → ∃ p, rel2.Possibilities = rel.Possibilities ++ [p] := by
  intro fuel
  induction fuel with
  | zero =>
    intro i ret rel rel2 i2 h
    exact absurd h (by simp [possLoop])
  | succ n ih =>
    intro i ret rel rel2 i2 h
    simp only [possLoop] at h
    by_cases h32 : Peek d i = 32
    · rw [if_pos h32] at h
      cases hc : parsePossibilityControllers d (n+1) i ret with
      | none =>
        rw [hc] at h
        simp at h
      | some r =>
        rw [hc] at h
        cases r with
        | error e => simp at h
        | ok pj =>
          obtain ⟨q, j⟩ := pj
          exact ih _ _ _ _ _ h
    · rw [if_neg h32] at h
      by_cases hterm : Peek d i = 44 ∨ Peek d i = 124 ∨ Peek d i = 0
      · rw [if_pos hterm] at h
        by_cases hname : ret.Name = []
        · rw [if_pos hname] at h
          simp at h
        · rw [if_neg hname] at h
          simp only [Option.some.injEq, Except.ok.injEq, Prod.mk.injEq] at h
          exact ⟨ret, by rw [← h.1]⟩
      · rw [if_neg hterm] at h
        exact ih _ _ _ _ _ h

theorem relLoop_nonempty (d : List Nat) (hp : (124 : Nat) ∉ d) : ∀ (fuel i : Nat) (ret : Relation) (dep dep2 : Depedency) (i2 : Nat), (ret.Possibilities = [] → ¬(Peek d i = 0 ∨ Peek d i = 44)) → relLoop d fuel i ret dep = some (.ok (dep2, i2)) → ∀ rel ∈ dep2.Relations, rel ∈ dep.Relations ∨ rel.Possibilities ≠ [] := by
  intro fuel
  induction fuel with
  | zero =>
    intro i ret dep dep2 i2 hinv h
    exact absurd h (by simp [relLoop])
  | succ n ih =>
    intro i ret dep dep2 i2 hinv h
    simp only [relLoop] at h
    by_cases hterm : Peek d i = 0 ∨ Peek d i = 44
    · rw [if_pos hterm] at h
      by_cases hre : ret.Possibilities = []
      · exact absurd hterm (hinv hre)
      · simp only [Option.some.injEq, Except.ok.injEq, Prod.mk.injEq] at h
        intro rel hrel
        rw [← h.1] at hrel
        simp only [List.mem_append, List.mem_singleton] at hrel
        cases hrel with
        | inl hm => exact Or.inl hm
        | inr hm => exact Or.inr (by rw [hm]; exact hre)
    · rw [if_neg hterm] at h
      by_cases h124 : Peek d i = 124
      · exact absurd (Peek_mem (by rw [h124]; omega)) (by rw [h124]; exact hp)
      · rw [if_neg h124] at h
        cases hq : parsePossibility d (n+1) i ret with
        | none =>
          rw [hq] at h
          simp at h
        | some r =>
          rw [hq] at h
          cases r with
          | error e => simp at h
          | ok pj =>
            obtain ⟨q, j⟩ := pj
            unfold parsePossibility at hq
            obtain ⟨p, hps⟩ := possLoop_appends d _ _ _ _ _ _ hq
            refine ih j q dep dep2 i2 (fun hre => ?_) h
            rw [hps] at hre
            exact absurd hre (by simp)

theorem depLoop_nonempty (d : List Nat) (hp : (124 : Nat) ∉ d) : ∀ (fuel i : Nat) (dep dep2 : Depedency) (i2 : Nat), isWs (Peek d i) = false → (∀ rel ∈ dep.Relations, rel.Possibilities ≠ []) → depLoop d fuel i dep = some (.ok (dep2, i2)) → ∀ rel ∈ dep2.Relations, rel.Possibilities ≠ [] := by
  intro fuel
  induction fuel with
  | zero =>
    intro i dep dep2 i2 hws hd h
    exact absurd h (by simp [depLoop])
  | succ n ih =>
    intro i dep dep2 i2 hws hd h
    simp only [depLoop] at h
    by_cases h0 : Peek d i = 0
    · rw [if_pos h0] at h
      simp only [Option.some.injEq, Except.ok.injEq, Prod.mk.injEq] at h
      rw [← h.1]
      exact hd
    · rw [if_neg h0] at h
      by_cases h44 : Peek d i = 44
      · rw [if_pos h44] at h
        exact ih _ _ _ _ (eatWhitespace_stop d (i+1)) hd h
      · rw [if_neg h44] at h
        cases hq : parseRelation d (n+1) i dep with
        | none =>
          rw [hq] at h
          simp at h
        | some r =>
          rw [hq] at h
          cases r with
          | error e => simp at h
          | ok pj =>
            obtain ⟨dep3, j⟩ := pj
            have hpk := (relLoop_mono d _ _ _ _ _ _ (by unfold parseRelation at hq; exact hq)).2
            have hweq : eatWhitespace d i = i := eatWhitespace_eq_self hws
            have hrels : ∀ rel ∈ dep3.Relations, rel ∈ dep.Relations ∨ rel.Possibilities ≠ [] := by
              refine relLoop_nonempty d hp (n+1) i ⟨[]⟩ dep dep3 j (fun _ => by tauto) ?_
              unfold parseRelation at hq
              rw [hweq] at hq
              exact hq
            have hwsj : isWs (Peek d j) = false := by
              cases hpk with
              | inl hz => rw [hz]; exact isWs_zero
              | inr hc => rw [hc]; decide
            refine ih j dep3 dep2 i2 hwsj (fun rel hrel => ?_) h
            cases hrels rel hrel with
            | inl hm => exact hd rel hm
            | inr hne => exact hne

theorem parsePossibilityOperator_bound (d : List Nat) (i : Nat) (v v2 : VersionRelation) (k : Nat) (h : parsePossibilityOperator d i v = .ok (v2, k)) : k ≤ d.length := by
  unfold parsePossibilityOperator at h
  by_cases h61 : Peek d (eatWhitespace d i) = 61
  · rw [if_pos h61] at h
    simp only [Except.ok.injEq, Prod.mk.injEq] at h
    have hlt : eatWhitespace d i < d.length := Peek_lt (by rw [h61]; omega)
    omega
  · rw [if_neg h61] at h
    by_cases hz : Peek d (eatWhitespace d i) = 0 ∨ Peek d (eatWhitespace d i + 1) = 0
    · rw [if_pos hz] at h
      exact absurd h (by simp)
    · rw [if_neg hz] at h
      have hlt : eatWhitespace d i + 1 < d.length := Peek_lt (by tauto)
      by_cases hop : (Peek d (eatWhitespace d i) = 62 ∧ Peek d (eatWhitespace d i + 1) = 61)
          ∨ (Peek d (eatWhitespace d i) = 60 ∧ Peek d (eatWhitespace d i + 1) = 61)
          ∨ (Peek d (eatWhitespace d i) = 60 ∧ Peek d (eatWhitespace d i + 1) = 60)
          ∨ (Peek d (eatWhitespace d i) = 62 ∧ Peek d (eatWhitespace d i + 1) = 62)
      · rw [if_pos hop] at h
        simp only [Except.ok.injEq, Prod.mk.injEq] at h
        omega
      · rw [if_neg hop] at h
        exact absurd h (by simp)

theorem parsePossibilityVersion_bound (d : List Nat) (fuel i : Nat) (p p2 : Possibility) (i2 : Nat) (h : parsePossibilityVersion d fuel i p = some (.ok (p2, i2))) : i2 ≤ d.length := by
  unfold parsePossibilityVersion at h
  split at h
  · simp at h
  · rename_i ver k hop
    unfold parsePossibilityNumber at h
    split at h
    · simp at h
    · simp at h
    · rename_i ver2 m hnum
      simp only [Option.some.injEq, Except.ok.injEq, Prod.mk.injEq] at h
      have h41 := (numLoop_mono d _ _ _ _ _ hnum).2
      have hlt : m < d.length := Peek_lt (by rw [h41]; omega)
      omega

theorem archsLoop_bound (d : List Nat) : ∀ (fuel i : Nat) (p p2 : Possibility) (i2 : Nat), archsLoop d fuel i p = some (.ok (p2, i2)) → i2 ≤ d.length := by
  intro fuel
  induction fuel with
  | zero =>
    intro i p p2 i2 h
    exact absurd h (by simp [archsLoop])
  | succ n ih =>
    intro i p p2 i2 h
    simp only [archsLoop] at h
    by_cases h0 : Peek d i = 0
    · rw [if_pos h0] at h
      simp at h
    · rw [if_neg h0] at h
      by_cases h93 : Peek d i = 93
      · rw [if_pos h93] at h
        simp only [Option.some.injEq, Except.ok.injEq, Prod.mk.injEq] at h
        have hlt : i < d.length := Peek_lt h0
        omega
      · rw [if_neg h93] at h
        cases ha : parsePossibilityArch d (n+1) i p with
        | none =>
          rw [ha] at h
          simp at h
        | some r =>
          rw [ha] at h
          cases r with
          | error e => simp at h
          | ok pj =>
            obtain ⟨q, j⟩ := pj
            exact ih _ _ _ _ h

theorem parsePossibilityArchs_bound (d : List Nat) (fuel i : Nat) (p p2 : Possibility) (i2 : Nat) (h : parsePossibilityArchs d fuel i p = some (.ok (p2, i2))) : i2 ≤ d.length := by
  unfold parsePossibilityArchs at h
  by_cases h33 : Peek d (eatWhitespace d i + 1) = 33
  · rw [if_pos h33] at h
    exact archsLoop_bound d _ _ _ _ _ h
  · rw [if_neg h33] at h
    exact archsLoop_bound d _ _ _ _ _ h

theorem parsePossibilityControllers_bound (d : List Nat) : ∀ (fuel i : Nat) (p p2 : Possibility) (i2 : Nat), i ≤ d.length → parsePossibilityControllers d fuel i p = some (.ok (p2, i2)) → i2 ≤ d.length := by
  intro fuel
  induction fuel with
  | zero =>
    intro i p p2 i2 hi h
    exact absurd h (by simp [parsePossibilityControllers])
  | succ n ih =>
    intro i p p2 i2 hi h
    simp only [parsePossibilityControllers] at h
    by_cases hterm : Peek d (eatWhitespace d i) = 44 ∨ Peek d (eatWhitespace d i) = 124 ∨ Peek d (eatWhitespace d i) = 0
    · rw [if_pos hterm] at h
      simp only [Option.some.injEq, Except.ok.injEq, Prod.mk.injEq] at h
      have := eatWhitespace_le_length hi
      omega
    · rw [if_neg hterm] at h
      by_cases h40 : Peek d (eatWhitespace d i) = 40
      · rw [if_pos h40] at h
        by_cases hv : p.Version.isSome = true
        · rw [if_pos hv] at h
          simp at h
        · rw [if_neg hv] at h
          cases hver : parsePossibilityVersion d (n+1) (eatWhitespace d i) p with
          | none =>
            rw [hver] at h
            simp at h
          | some r =>
            rw [hver] at h
            cases r with
            | error e => simp at h
            | ok pj =>
              obtain ⟨q, j⟩ := pj
              exact ih j _ _ _ (parsePossibilityVersion_bound d _ _ _ _ _ hver) h
      · rw [if_neg h40] at h
        by_cases h91 : Peek d (eatWhitespace d i) = 91
        · rw [if_pos h91] at h
          by_cases harch : p.Arches.Arches ≠ []
          · rw [if_pos harch] at h
            simp at h
          · rw [if_neg harch] at h
            cases harchs : parsePossibilityArchs d (n+1) (eatWhitespace d i) p with
            | none =>
              rw [harchs] at h
              simp at h
            | some r =>
              rw [harchs] at h
              cases r with
              | error e => simp at h
              | ok pj =>
                obtain ⟨q, j⟩ := pj
                exact ih j _ _ _ (parsePossibilityArchs_bound d _ _ _ _ _ harchs) h
        · rw [if_neg h91] at h
          simp at h

theorem possLoop_bound (d : List Nat) : ∀ (fuel i : Nat) (ret : Possibility) (rel rel2 : Relation) (i2 : Nat), i ≤ d.length → possLoop d fuel i ret rel = some (.ok (rel2, i2)) → i2 ≤ d.length := by
  intro fuel
  induction fuel with
  | zero =>
    intro i ret rel rel2 i2 hi h
    exact absurd h (by simp [possLoop])
  | succ n ih =>
    intro i ret rel rel2 i2 hi h
    simp only [possLoop] at h
    by_cases h32 : Peek d i = 32
    · rw [if_pos h32] at h
      cases hc : parsePossibilityControllers d (n+1) i ret with
      | none =>
        rw [hc] at h
        simp at h
      | some r =>
        rw [hc] at h
        cases r with
        | error e => simp at h
        | ok pj =>
          obtain ⟨q, j⟩ := pj
          exact ih j _ _ _ _ (parsePossibilityControllers_bound d _ _ _ _ _ hi hc) h
    · rw [if_neg h32] at h
      by_cases hterm : Peek d i = 44 ∨ Peek d i = 124 ∨ Peek d i = 0
      · rw [if_pos hterm] at h
        by_cases hname : ret.Name = []
        · rw [if_pos hname] at h
          simp at h
        · rw [if_neg hname] at h
          simp only [Option.some.injEq, Except.ok.injEq, Prod.mk.injEq] at h
          omega
      · rw [if_neg hterm] at h
        have hlt : i < d.length := Peek_lt (by tauto)
        exact ih (i+1) _ _ _ _ (by omega) h

theorem relLoop_bound (d : List Nat) : ∀ (fuel i : Nat) (ret : Relation) (dep dep2 : Depedency) (i2 : Nat), i ≤ d.length → relLoop d fuel i ret dep = some (.ok (dep2, i2)) → i2 ≤ d.length := by
  intro fuel
  induction fuel with
  | zero =>
    intro i ret dep dep2 i2 hi h
    exact absurd h (by simp [relLoop])
  | succ n ih =>
    intro i ret dep dep2 i2 hi h
    simp only [relLoop] at h
    by_cases hterm : Peek d i = 0 ∨ Peek d i = 44
    · rw [if_pos hterm] at h
      simp only [Option.some.injEq, Except.ok.injEq, Prod.mk.injEq] at h
      omega
    · rw [if_neg hterm] at h
      by_cases h124 : Peek d i = 124
      · rw [if_pos h124] at h
        have hlt : i < d.length := Peek_lt (by tauto)
        exact ih _ _ _ _ _ (eatWhitespace_le_length (by omega)) h
      · rw [if_neg h124] at h
        cases hq : parsePossibility d (n+1) i ret with
        | none =>
          rw [hq] at h
          simp at h
        | some r =>
          rw [hq] at h
          cases r with
          | error e => simp at h
          | ok pj =>
            obtain ⟨q, j⟩ := pj
            have hjb : j ≤ d.length := by
              unfold parsePossibility at hq
              exact possLoop_bound d _ _ _ _ _ _ (eatWhitespace_le_length hi) hq
            exact ih j _ _ _ _ hjb h

theorem Peek_append_sentinel (s t : List Nat) : ∀ i : Nat, i ≤ s.length → Peek (s ++ 0 :: t) i = Peek s i := by
  induction s with
  | nil =>
    intro i h
    have hz : i = 0 := by simp only [List.length_nil] at h; omega
    subst hz
    rfl
  | cons c r ih =>
    intro i h
    cases i with
    | zero => rfl
    | succ j =>
      simp only [List.cons_append]
      unfold Peek
      rw [List.getD_cons_succ, List.getD_cons_succ]
      exact ih j (by simp only [List.length_cons] at h; omega)

theorem drop_append_sentinel (s t : List Nat) : ∀ i : Nat, i ≤ s.length → (s ++ 0 :: t).drop i = s.drop i ++ 0 :: t := by
  induction s with
  | nil =>
    intro i h
    have hz : i = 0 := by simp only [List.length_nil] at h; omega
    subst hz
    rfl
  | cons c r ih =>
    intro i h
    cases i with
    | zero => rfl
    | succ j =>
      simp only [List.cons_append, List.drop_succ_cons]
      exact ih j (by simp only [List.length_cons] at h; omega)

theorem wsCount_append_sentinel (t : List Nat) : ∀ a : List Nat, wsCount (a ++ 0 :: t) = wsCount a := by
  intro a
  induction a with
  | nil => simp [wsCount, wsCount_cons, isWs_zero]
  | cons c r ih =>
    simp only [List.cons_append, wsCount_cons]
    rw [ih]

theorem eatWhitespace_append_sentinel (s t : List Nat) (i : Nat) (h : i ≤ s.length) : eatWhitespace (s ++ 0 :: t) i = eatWhitespace s i := by
  unfold eatWhitespace
  rw [drop_append_sentinel s t i h, wsCount_append_sentinel]

theorem numLoop_sentinel (s t : List Nat) : ∀ (fuel i : Nat) (v : VersionRelation), i ≤ s.length → numLoop (s ++ 0 :: t) fuel i v = numLoop s fuel i v := by
  intro fuel
  induction fuel with
  | zero =>
    intro i v h
    rfl
  | succ n ih =>
    intro i v h
    simp only [numLoop]
    rw [Peek_append_sentinel s t i h]
    by_cases h0 : Peek s i = 0
    · rw [if_pos h0, if_pos h0]
    · rw [if_neg h0, if_neg h0]
      by_cases h41 : Peek s i = 41
      · rw [if_pos h41, if_pos h41]
      · rw [if_neg h41, if_neg h41]
        have hlt : i < s.length := Peek_lt h0
        exact ih (i+1) _ (by omega)

theorem parsePossibilityNumber_sentinel (s t : List Nat) (fuel i : Nat) (v : VersionRelation) (h : i ≤ s.length) : parsePossibilityNumber (s ++ 0 :: t) fuel i v = parsePossibilityNumber s fuel i v := by
  unfold parsePossibilityNumber
  rw [eatWhitespace_append_sentinel s t i h]
  exact numLoop_sentinel s t fuel _ v (eatWhitespace_le_length h)

theorem parsePossibilityOperator_sentinel (s t : List Nat) (i : Nat) (v : VersionRelation) (h : i ≤ s.length) : parsePossibilityOperator (s ++ 0 :: t) i v = parsePossibilityOperator s i v := by
  unfold parsePossibilityOperator
  rw [eatWhitespace_append_sentinel s t i h]
  have hwle : eatWhitespace s i ≤ s.length := eatWhitespace_le_length h
  rw [Peek_append_sentinel s t _ hwle]
  by_cases h61 : Peek s (eatWhitespace s i) = 61
  · rw [if_pos h61, if_pos h61]
  · rw [if_neg h61, if_neg h61]
    by_cases h0 : Peek s (eatWhitespace s i) = 0
    · rw [if_pos (Or.inl h0), if_pos (Or.inl h0)]
    · have hlt : eatWhitespace s i < s.length := Peek_lt h0
      rw [Peek_append_sentinel s t _ (by omega)]

theorem parsePossibilityVersion_sentinel (s t : List Nat) (fuel i : Nat) (p : Possibility) (h : i ≤ s.length) (h40 : Peek s (eatWhitespace s i) = 40) : parsePossibilityVersion (s ++ 0 :: t) fuel i p = parsePossibilityVersion s fuel i p := by
  unfold parsePossibilityVersion
  rw [eatWhitespace_append_sentinel s t i h]
  have hlt : eatWhitespace s i < s.length := Peek_lt (by rw [h40]; omega)
  rw [parsePossibilityOperator_sentinel s t _ ⟨[], []⟩ (by omega)]
  cases hop : parsePossibilityOperator s (eatWhitespace s i + 1) ⟨[], []⟩ with
  | error e => rfl
  | ok vk =>
    obtain ⟨ver, k⟩ := vk
    have hkb : k ≤ s.length := parsePossibilityOperator_bound s _ _ _ _ hop
    simp only [parsePossibilityNumber_sentinel s t fuel k ver hkb]

theorem archTokLoop_sentinel (s t : List Nat) : ∀ (fuel i : Nat) (arch : List Nat) (p : Possibility), i ≤ s.length → archTokLoop (s ++ 0 :: t) fuel i arch p = archTokLoop s fuel i arch p := by
  intro fuel
  induction fuel with
  | zero =>
    intro i arch p h
    rfl
  | succ n ih =>
    intro i arch p h
    simp only [archTokLoop]
    rw [Peek_append_sentinel s t i h]
    by_cases h0 : Peek s i = 0
    · rw [if_pos h0, if_pos h0]
    · rw [if_neg h0, if_neg h0]
      by_cases h33 : Peek s i = 33
      · rw [if_pos h33, if_pos h33]
      · rw [if_neg h33, if_neg h33]
        by_cases hend : Peek s i = 93 ∨ Peek s i = 32
        · rw [if_pos hend, if_pos hend]
        · rw [if_neg hend, if_neg hend]
          have hlt : i < s.length := Peek_lt h0
          exact ih (i+1) _ _ (by omega)

theorem parsePossibilityArch_sentinel (s t : List Nat) (fuel i : Nat) (p : Possibility) (h : i ≤ s.length) : parsePossibilityArch (s ++ 0 :: t) fuel i p = parsePossibilityArch s fuel i p := by
  unfold parsePossibilityArch
  rw [eatWhitespace_append_sentinel s t i h]
  exact archTokLoop_sentinel s t fuel _ [] p (eatWhitespace_le_length h)

theorem archsLoop_sentinel (s t : List Nat) : ∀ (fuel i : Nat) (p : Possibility), i ≤ s.length → archsLoop (s ++ 0 :: t) fuel i p = archsLoop s fuel i p := by
  intro fuel
  induction fuel with
  | zero =>
    intro i p h
    rfl
  | succ n ih =>
    intro i p h
    simp only [archsLoop]
    rw [Peek_append_sentinel s t i h]
    by_cases h0 : Peek s i = 0
    · rw [if_pos h0, if_pos h0]
    · rw [if_neg h0, if_neg h0]
      by_cases h93 : Peek s i = 93
      · rw [if_pos h93, if_pos h93]
      · rw [if_neg h93, if_neg h93]
        rw [parsePossibilityArch_sentinel s t (n+1) i p h]
        cases ha : parsePossibilityArch s (n+1) i p with
        | none => rfl
        | some r =>
          cases r with
          | error e => rfl
          | ok pj =>
            obtain ⟨q, j⟩ := pj
            have hpk := (parsePossibilityArch_mono s _ _ _ _ _ ha).2
            have hjb : j < s.length := Peek_lt (by rcases hpk with hk | hk <;> rw [hk] <;> omega)
            exact ih j q (by omega)

theorem parsePossibilityArchs_sentinel (s t : List Nat) (fuel i : Nat) (p : Possibility) (h : i ≤ s.length) (h91 : Peek s (eatWhitespace s i) = 91) : parsePossibilityArchs (s ++ 0 :: t) fuel i p = parsePossibilityArchs s fuel i p := by
  unfold parsePossibilityArchs
  rw [eatWhitespace_append_sentinel s t i h]
  have hlt : eatWhitespace s i < s.length := Peek_lt (by rw [h91]; omega)
  rw [Peek_append_sentinel s t _ (by omega)]
  by_cases h33 : Peek s (eatWhitespace s i + 1) = 33
  · rw [if_pos h33, if_pos h33]
    have hlt2 : eatWhitespace s i + 1 < s.length := Peek_lt (by rw [h33]; omega)
    exact archsLoop_sentinel s t fuel _ _ (by omega)
  · rw [if_neg h33, if_neg h33]
    exact archsLoop_sentinel s t fuel _ _ (by omega)

theorem parsePossibilityControllers_sentinel (s t : List Nat) : ∀ (fuel i : Nat) (p : Possibility), i ≤ s.length → parsePossibilityControllers (s ++ 0 :: t) fuel i p = parsePossibilityControllers s fuel i p := by
  intro fuel
  induction fuel with
  | zero =>
    intro i p h
    rfl
  | succ n ih =>
    intro i p h
    simp only [parsePossibilityControllers]
    rw [eatWhitespace_append_sentinel s t i h]
    have hwle : eatWhitespace s i ≤ s.length := eatWhitespace_le_length h
    rw [Peek_append_sentinel s t _ hwle]
    by_cases hterm : Peek s (eatWhitespace s i) = 44 ∨ Peek s (eatWhitespace s i) = 124 ∨ Peek s (eatWhitespace s i) = 0
    · rw [if_pos hterm, if_pos hterm]
    · rw [if_neg hterm, if_neg hterm]
      by_cases h40 : Peek s (eatWhitespace s i) = 40
      · rw [if_pos h40, if_pos h40]
        by_cases hv : p.Version.isSome = true
        · rw [if_pos hv, if_pos hv]
        · rw [if_neg hv, if_neg hv]
          have hid : eatWhitespace s (eatWhitespace s i) = eatWhitespace s i := eatWhitespace_idem s i
          rw [parsePossibilityVersion_sentinel s t (n+1) _ p hwle (by rw [hid]; exact h40)]
          cases hver : parsePossibilityVersion s (n+1) (eatWhitespace s i) p with
          | none => rfl
          | some r =>
            cases r with
            | error e => rfl
            | ok pj =>
              obtain ⟨q, j⟩ := pj
              exact ih j q (parsePossibilityVersion_bound s _ _ _ _ _ hver)
      · rw [if_neg h40, if_neg h40]
        by_cases h91 : Peek s (eatWhitespace s i) = 91
        · rw [if_pos h91, if_pos h91]
          by_cases harch : p.Arches.Arches ≠ []
          · rw [if_pos harch, if_pos harch]
          · rw [if_neg harch, if_neg harch]
            have hid : eatWhitespace s (eatWhitespace s i) = eatWhitespace s i := eatWhitespace_idem s i
            rw [parsePossibilityArchs_sentinel s t (n+1) _ p hwle (by rw [hid]; exact h91)]
            cases harchs : parsePossibilityArchs s (n+1) (eatWhitespace s i) p with
            | none => rfl
            | some r =>
              cases r with
              | error e => rfl
              | ok pj =>
                obtain ⟨q, j⟩ := pj
                exact ih j q (parsePossibilityArchs_bound s _ _ _ _ _ harchs)
        · rw [if_neg h91, if_neg h91]

theorem possLoop_sentinel (s t : List Nat) : ∀ (fuel i : Nat) (ret : Possibility) (rel : Relation), i ≤ s.length → possLoop (s ++ 0 :: t) fuel i ret rel = possLoop s fuel i ret rel := by
  intro fuel
  induction fuel with
  | zero =>
    intro i ret rel h
    rfl
  | succ n ih =>
    intro i ret rel h
    simp only [possLoop]
    rw [Peek_append_sentinel s t i h]
    by_cases h32 : Peek s i = 32
    · rw [if_pos h32, if_pos h32]
      rw [parsePossibilityControllers_sentinel s t (n+1) i ret h]
      cases hc : parsePossibilityControllers s (n+1) i ret with
      | none => rfl
      | some r =>
        cases r with
        | error e => rfl
        | ok pj =>
          obtain ⟨q, j⟩ := pj
          exact ih j q rel (parsePossibilityControllers_bound s _ _ _ _ _ h hc)
    · rw [if_neg h32, if_neg h32]
      by_cases hterm : Peek s i = 44 ∨ Peek s i = 124 ∨ Peek s i = 0
      · rw [if_pos hterm, if_pos hterm]
      · rw [if_neg hterm, if_neg hterm]
        have hlt : i < s.length := Peek_lt (by tauto)
        exact ih (i+1) _ rel (by omega)

theorem parsePossibility_sentinel (s t : List Nat) (fuel i : Nat) (rel : Relation) (h : i ≤ s.length) : parsePossibility (s ++ 0 :: t) fuel i rel = parsePossibility s fuel i rel := by
  unfold parsePossibility
  rw [eatWhitespace_append_sentinel s t i h]
  exact possLoop_sentinel s t fuel _ initPossibility rel (eatWhitespace_le_length h)

theorem relLoop_sentinel (s t : List Nat) : ∀ (fuel i : Nat) (ret : Relation) (dep : Depedency), i ≤ s.length → relLoop (s ++ 0 :: t) fuel i ret dep = relLoop s fuel i ret dep := by
  intro fuel
  induction fuel with
  | zero =>
    intro i ret dep h
    rfl
  | succ n ih =>
    intro i ret dep h
    simp only [relLoop]
    rw [Peek_append_sentinel s t i h]
    by_cases hterm : Peek s i = 0 ∨ Peek s i = 44
    · rw [if_pos hterm, if_pos hterm]
    · rw [if_neg hterm, if_neg hterm]
      by_cases h124 : Peek s i = 124
      · rw [if_pos h124, if_pos h124]
        have hlt : i < s.length := Peek_lt (by tauto)
        rw [eatWhitespace_append_sentinel s t (i+1) (by omega)]
        exact ih _ ret dep (eatWhitespace_le_length (by omega))
      · rw [if_neg h124, if_neg h124]
        rw [parsePossibility_sentinel s t (n+1) i ret h]
        cases hq : parsePossibility s (n+1) i ret with
        | none => rfl
        | some r =>
          cases r with
          | error e => rfl
          | ok pj =>
            obtain ⟨q, j⟩ := pj
            have hjb : j ≤ s.length := by
              unfold parsePossibility at hq
              exact possLoop_bound s _ _ _ _ _ _ (eatWhitespace_le_length h) hq
            exact ih j q dep hjb

theorem parseRelation_sentinel (s t : List Nat) (fuel i : Nat) (dep : Depedency) (h : i ≤ s.length) : parseRelation (s ++ 0 :: t) fuel i dep = parseRelation s fuel i dep := by
  unfold parseRelation
  rw [eatWhitespace_append_sentinel s t i h]
  exact relLoop_sentinel s t fuel _ _ dep (eatWhitespace_le_length h)

theorem depLoop_sentinel (s t : List Nat) : ∀ (fuel i : Nat) (dep : Depedency), i ≤ s.length → depLoop (s ++ 0 :: t) fuel i dep = depLoop s fuel i dep := by
  intro fuel
  induction fuel with
  | zero =>
    intro i dep h
    rfl
  | succ n ih =>
    intro i dep h
    simp only [depLoop]
    rw [Peek_append_sentinel s t i h]
    by_cases h0 : Peek s i = 0
    · rw [if_pos h0, if_pos h0]
    · rw [if_neg h0, if_neg h0]
      by_cases h44 : Peek s i = 44
      · rw [if_pos h44, if_pos h44]
        have hlt : i < s.length := Peek_lt h0
        rw [eatWhitespace_append_sentinel s t (i+1) (by omega)]
        exact ih _ dep (eatWhitespace_le_length (by omega))
      · rw [if_neg h44, if_neg h44]
        rw [parseRelation_sentinel s t (n+1) i dep h]
        cases hq : parseRelation s (n+1) i dep with
        | none => rfl
        | some r =>
          cases r with
          | error e => rfl
          | ok pj =>
            obtain ⟨q, j⟩ := pj
            have hjb : j ≤ s.length := by
              unfold parseRelation at hq
              exact relLoop_bound s _ _ _ _ _ _ (eatWhitespace_le_length h) hq
            exact ih j q hjb

theorem Parse_append_sentinel (s t : List Nat) : Parse (s ++ 0 :: t) = Parse s := by
  unfold Parse parseDependency
  rw [eatWhitespace_append_sentinel s t 0 (by omega)]
  have hwle : eatWhitespace s 0 ≤ s.length := eatWhitespace_le_length (by omega)
  rw [depLoop_sentinel s t _ _ ⟨[]⟩ hwle]
  have hs := depLoop_isSome s (s.length + 1) (eatWhitespace s 0) ⟨[]⟩ (by omega)
  cases hd : depLoop s (s.length + 1) (eatWhitespace s 0) ⟨[]⟩ with
  | none =>
    rw [hd] at hs
    exact absurd hs (by simp)
  | some r =>
    have hlen : s.length + 1 ≤ (s ++ 0 :: t).length + 1 := by
      simp only [List.length_append, List.length_cons]
      omega
    rw [depLoop_fuelMono s (s.length + 1) ((s ++ 0 :: t).length + 1) _ ⟨[]⟩ r hlen hd]

/-- Claim C1, counterexample: an input whose term carries two bracketed
architecture blocks with the first being the empty list parses
successfully (to a possibility with an empty, non-negated architecture
set), instead of failing with the duplicate-architecture error. -/
theorem c1_counterexample : Parse (bytes "foo [] []") = some (.ok ⟨[⟨[⟨bytes "foo", none, ⟨false, []⟩, ⟨[]⟩⟩]⟩]⟩) ∧ Parse (bytes "foo [] []") ≠ some (.error .onlyOneArch) := by
  constructor
  · rfl
  · decide

/-- Claim C1, amended: the duplicate-architecture check tests whether the
accumulated architecture list is non-empty, not whether a bracket block
was already parsed.  Whenever the controllers parser meets a lbracket
while the list is non-empty it fails with the duplicate-architecture
error; a first block that contributed no architecture (the empty list)
does not arm the check.  The concrete conjunct shows a duplicate bracket
after a non-empty first block failing as the original claim describes. -/
theorem c1_amended : (∀ (d : List Nat) (fuel i : Nat) (possi : Possibility), possi.Arches.Arches ≠ [] → Peek d (eatWhitespace d i) = 91 → parsePossibilityControllers d (fuel+1) i possi = some (.error .onlyOneArch)) ∧ Parse (bytes "foo [amd64] [i386]") = some (.error .onlyOneArch) := by
  constructor
  · intro d fuel i possi harch h91
    simp only [parsePossibilityControllers, h91]
    norm_num
    intro hempty
    exact absurd hempty harch
  · rfl

theorem c1_amended_witness : ((⟨bytes "a", none, ⟨false, [⟨bytes "amd64"⟩]⟩, ⟨[]⟩⟩ : Possibility).Arches.Arches ≠ [] ∧ Peek (bytes "[") (eatWhitespace (bytes "[") 0) = 91) ∧ parsePossibilityControllers (bytes "[") 1 0 ⟨bytes "a", none, ⟨false, [⟨bytes "amd64"⟩]⟩, ⟨[]⟩⟩ = some (.error .onlyOneArch) :=
  ⟨⟨by decide, by rfl⟩, c1_amended.1 (bytes "[") 0 0 ⟨bytes "a", none, ⟨false, [⟨bytes "amd64"⟩]⟩, ⟨[]⟩⟩ (by decide) (by rfl)⟩

/-- Claim C2, counterexample: the input consisting of a single pipe
parses successfully and its one Relation contains zero Possibilities, so
the non-empty-Relation invariant does not hold for all reachable
results. -/
theorem c2_counterexample : Parse (bytes "|") = some (.ok ⟨[⟨[]⟩]⟩) ∧ (⟨[]⟩ : Relation) ∈ (Depedency.mk [⟨[]⟩]).Relations ∧ (⟨[]⟩ : Relation).Possibilities = [] := by
  refine ⟨rfl, ?_, rfl⟩
  simp

/-- Claim C2, amended: for every input containing no pipe byte on which
Parse succeeds, every Relation of the result contains at least one
Possibility.  (An input whose relation segment consists only of pipe
separators, such as a single pipe, instead produces a Relation with zero
Possibilities, contradicting the claim as stated.) -/
theorem c2_amended : ∀ (d : List Nat) (dep : Depedency), (124 : Nat) ∉ d → Parse d = some (.ok dep) → ∀ rel ∈ dep.Relations, rel.Possibilities ≠ [] := by
  intro d dep hp hP rel hrel
  unfold Parse parseDependency at hP
  cases hd : depLoop d (d.length + 1) (eatWhitespace d 0) ⟨[]⟩ with
  | none =>
    rw [hd] at hP
    simp at hP
  | some r =>
    rw [hd] at hP
    cases r with
    | error e => simp at hP
    | ok pj =>
      obtain ⟨dep2, j⟩ := pj
      simp only [Option.some.injEq, Except.ok.injEq] at hP
      subst hP
      exact depLoop_nonempty d hp _ _ _ _ _ (eatWhitespace_stop d 0) (by simp) hd rel hrel

theorem c2_amended_witness : ((124 : Nat) ∉ bytes "foo, bar") ∧ ∀ rel ∈ (Depedency.mk [⟨[⟨bytes "foo", none, ⟨false, []⟩, ⟨[]⟩⟩]⟩, ⟨[⟨bytes "bar", none, ⟨false, []⟩, ⟨[]⟩⟩]⟩]).Relations, rel.Possibilities ≠ [] :=
  ⟨by decide, c2_amended (bytes "foo, bar") ⟨[⟨[⟨bytes "foo", none, ⟨false, []⟩, ⟨[]⟩⟩]⟩, ⟨[⟨bytes "bar", none, ⟨false, []⟩, ⟨[]⟩⟩]⟩]⟩ (by decide) (by rfl)⟩

/-- Claim C3: Parse of the empty string, or of any input made only of
whitespace bytes (space, tab, carriage return, newline), succeeds with a
Depedency holding zero relations. -/
theorem c3_theorem : ∀ d : List Nat, (∀ c ∈ d, isWs c = true) → Parse d = some (.ok ⟨[]⟩) := by
  intro d hws
  have hzero : Peek d (eatWhitespace d 0) = 0 := by
    by_contra hne
    have hmem := Peek_mem hne
    have ht := hws _ hmem
    have hstop := eatWhitespace_stop d 0
    rw [ht] at hstop
    exact Bool.noConfusion hstop
  unfold Parse parseDependency
  simp only [depLoop]
  rw [if_pos hzero]

theorem c3_witness : (∀ c ∈ ([32, 9, 13, 10] : List Nat), isWs c = true) ∧ Parse [32, 9, 13, 10] = some (.ok ⟨[]⟩) :=
  ⟨by decide, c3_theorem [32, 9, 13, 10] (by decide)⟩

/-- Claim C4: a lparen or lbracket seen by the possibility loop with no
preceding space is appended verbatim to the name rather than opening a
controller, and concretely an unspaced version qualifier is absorbed
into the name with no version constraint recorded. -/
theorem c4_theorem : (∀ (d : List Nat) (fuel i : Nat) (ret : Possibility) (rel : Relation), (Peek d i = 40 ∨ Peek d i = 91) → possLoop d (fuel+1) i ret rel = possLoop d fuel (i+1) { ret with Name := ret.Name ++ [Peek d i] } rel) ∧ Parse (bytes "foo(>=1.0)") = some (.ok ⟨[⟨[⟨bytes "foo(>=1.0)", none, ⟨false, []⟩, ⟨[]⟩⟩]⟩]⟩) := by
  constructor
  · intro d fuel i ret rel hpk
    rcases hpk with h | h <;> simp only [possLoop, h] <;> norm_num
  · rfl

theorem c4_witness : (Peek (bytes "(") 0 = 40 ∨ Peek (bytes "(") 0 = 91) ∧ possLoop (bytes "(") 2 0 initPossibility ⟨[]⟩ = possLoop (bytes "(") 1 1 { initPossibility with Name := initPossibility.Name ++ [Peek (bytes "(") 0] } ⟨[]⟩ :=
  ⟨Or.inl (by rfl), c4_theorem.1 (bytes "(") 1 0 initPossibility ⟨[]⟩ (Or.inl (by rfl))⟩

/-- Claim C5: operator parsing reads one byte after skipping whitespace;
an equals sign alone is the operator, otherwise a second byte is read,
the sentinel on either byte is the end-of-input-in-operator error, the
two-byte token must be one of the four comparison operators, and any
other token is the unknown-operator error carrying that token; and
concretely a tilde-greater token fails with the unknown-operator
error. -/
theorem c5_theorem : (∀ (d : List Nat) (i : Nat) (ver : VersionRelation), Peek d (eatWhitespace d i) = 61 → parsePossibilityOperator d i ver = .ok ({ ver with Operator := [61] }, eatWhitespace d i + 1)) ∧ (∀ (d : List Nat) (i : Nat) (ver : VersionRelation), Peek d (eatWhitespace d i) ≠ 61 → (Peek d (eatWhitespace d i) = 0 ∨ Peek d (eatWhitespace d i + 1) = 0) → parsePossibilityOperator d i ver = .error .eofOperator) ∧ (∀ (d : List Nat) (i : Nat) (ver : VersionRelation) (a b : Nat), a = Peek d (eatWhitespace d i) → b = Peek d (eatWhitespace d i + 1) → a ≠ 61 → a ≠ 0 → b ≠ 0 → (((a = 62 ∧ b = 61) ∨ (a = 60 ∧ b = 61) ∨ (a = 60 ∧ b = 60) ∨ (a = 62 ∧ b = 62)) → parsePossibilityOperator d i ver = .ok ({ ver with Operator := [a, b] }, eatWhitespace d i + 2)) ∧ (¬((a = 62 ∧ b = 61) ∨ (a = 60 ∧ b = 61) ∨ (a = 60 ∧ b = 60) ∨ (a = 62 ∧ b = 62)) → parsePossibilityOperator d i ver = .error (.unknownOperator [a, b]))) ∧ Parse (bytes "foo (~> 1.0)") = some (.error (.unknownOperator (bytes "~>"))) := by
  refine ⟨?_, ?_, ?_, by rfl⟩
  · intro d i ver h61
    unfold parsePossibilityOperator
    rw [if_pos h61]
  · intro d i ver h61 hz
    unfold parsePossibilityOperator
    rw [if_neg h61, if_pos hz]
  · intro d i ver a b ha hb h61 h0a h0b
    subst ha
    subst hb
    constructor
    · intro hop
      unfold parsePossibilityOperator
      rw [if_neg h61, if_neg (by tauto), if_pos hop]
    · intro hnop
      unfold parsePossibilityOperator
      rw [if_neg h61, if_neg (by tauto), if_neg hnop]

theorem c5_witness : ((126 : Nat) = Peek (bytes "~>") (eatWhitespace (bytes "~>") 0) ∧ (62 : Nat) = Peek (bytes "~>") (eatWhitespace (bytes "~>") 0 + 1) ∧ (126 : Nat) ≠ 61 ∧ (126 : Nat) ≠ 0 ∧ (62 : Nat) ≠ 0) ∧ parsePossibilityOperator (bytes "~>") 0 ⟨[], []⟩ = .error (.unknownOperator [126, 62]) :=
  ⟨⟨by rfl, by rfl, by decide, by decide, by decide⟩, (c5_theorem.2.2.1 (bytes "~>") 0 ⟨[], []⟩ 126 62 (by rfl) (by rfl) (by decide) (by decide) (by decide)).2 (by decide)⟩

/-- Claim C6: a comma at the top level is consumed together with any
following whitespace and the dependency loop simply continues, so runs
of consecutive commas are swallowed without producing an empty Relation,
and concretely a doubled comma yields exactly the two named
relations. -/
theorem c6_theorem : (∀ (d : List Nat) (fuel i : Nat) (dep : Depedency), Peek d i = 44 → depLoop d (fuel+1) i dep = depLoop d fuel (eatWhitespace d (i+1)) dep) ∧ Parse (bytes "foo,,bar") = some (.ok ⟨[⟨[⟨bytes "foo", none, ⟨false, []⟩, ⟨[]⟩⟩]⟩, ⟨[⟨bytes "bar", none, ⟨false, []⟩, ⟨[]⟩⟩]⟩]⟩) := by
  constructor
  · intro d fuel i dep h44
    simp only [depLoop, h44]
    norm_num
  · rfl

theorem c6_witness : Peek (bytes ",x") 0 = 44 ∧ depLoop (bytes ",x") 3 0 ⟨[]⟩ = depLoop (bytes ",x") 2 (eatWhitespace (bytes ",x") 1) ⟨[]⟩ :=
  ⟨by rfl, c6_theorem.1 (bytes ",x") 2 0 ⟨[]⟩ (by rfl)⟩

/-- Claim C7: a bang immediately after the opening lbracket is consumed
and sets the whole-list negation flag once, while a bang seen anywhere
by the single-architecture-token parser is the negation-placement error;
shown by the token-loop error step, the bracket-opening step, and the
two concrete parses. -/
theorem c7_theorem : (∀ (d : List Nat) (fuel i : Nat) (arch : List Nat) (possi : Possibility), Peek d i = 33 → archTokLoop d (fuel+1) i arch possi = some (.error .negateWholeBlocks)) ∧ (∀ (d : List Nat) (fuel i : Nat) (possi : Possibility), Peek d (eatWhitespace d i + 1) = 33 → parsePossibilityArchs d fuel i possi = archsLoop d fuel (eatWhitespace d i + 2) { possi with Arches := ⟨true, possi.Arches.Arches⟩ }) ∧ Parse (bytes "foo [!amd64 i386]") = some (.ok ⟨[⟨[⟨bytes "foo", none, ⟨true, [⟨bytes "amd64"⟩, ⟨bytes "i386"⟩]⟩, ⟨[]⟩⟩]⟩]⟩) ∧ Parse (bytes "foo [amd64 !i386]") = some (.error .negateWholeBlocks) := by
  refine ⟨?_, ?_, by rfl, by rfl⟩
  · intro d fuel i arch possi h33
    simp only [archTokLoop, h33]
    norm_num
  · intro d fuel i possi h33
    unfold parsePossibilityArchs
    rw [if_pos h33]

theorem c7_witness : Peek (bytes "!x") 0 = 33 ∧ archTokLoop (bytes "!x") 5 0 [] initPossibility = some (.error .negateWholeBlocks) :=
  ⟨by rfl, c7_theorem.1 (bytes "!x") 4 0 [] initPossibility (by rfl)⟩

/-- Claim C8: Parse is deterministic and stateless across calls: it is a
pure function of the input bytes (the Go parser allocates its cursor and
result inside Parse and touches no global state), so two invocations on
the same input are structurally equal. -/
theorem c8_theorem : ∀ d : List Nat, Parse d = Parse d :=
  fun _ => rfl

/-- Claim C9: the parser terminates on every input: with the fuel bound
chosen by Parse (input length plus one), the run never exhausts fuel,
because every loop iteration of every parser either consumes at least
one byte or returns; so Parse always yields a result. -/
theorem c9_theorem : ∀ d : List Nat, ∃ r : Except ParseErr Depedency, Parse d = some r := by
  intro d
  have hs := Parse_isSome d
  cases hP : Parse d with
  | none =>
    rw [hP] at hs
    exact absurd hs (by simp)
  | some r => exact ⟨r, rfl⟩

/-- Claim C10: the cursor sentinel for end of input is the byte 0, so a
NUL byte in the input is indistinguishable from end of input: for every
NUL-free prefix s and arbitrary suffix t, parsing s, NUL, t gives
exactly the result of parsing s alone. -/
theorem c10_theorem : ∀ s t : List Nat, (∀ c ∈ s, c ≠ 0) → Parse (s ++ 0 :: t) = Parse s :=
  fun s t _ => Parse_append_sentinel s t

theorem c10_witness : (∀ c ∈ bytes "foo", c ≠ 0) ∧ Parse (bytes "foo" ++ 0 :: bytes " (>= 1.0)") = Parse (bytes "foo") :=
  ⟨by decide, c10_theorem (bytes "foo") (bytes " (>= 1.0)") (by decide)⟩
